import Mathlib

/-!
# WireFitQLearn: a shallow embedding of `Software/WireFitQLearn.cpp`

Modelling conventions.

* `double` values are elements of a linearly ordered field `α`; the concrete
  evaluations use `ℚ`.  Arithmetic is exact: rounding, infinities and NaN are
  not represented, and a division by zero has Lean's value `0`.
* `std::vector<double>` is `List α`.  `operator[]` with an index that is out
  of range is undefined behaviour in C++; here every such access makes the
  enclosing function return `none`, and so does the `throw 1` of
  `chooseBoltzmanAction`.
* `actionDimensions` and `numberOfWires` size vectors and are natural numbers;
  `gradientDescentMaxIterations` is an `Int` because the loop test compares it
  with a signed counter.
* The neural network, the back-propagation trainer, `exp`, the real-exponent
  `pow` and `rand` are not part of the source file: they are the fields of
  `Collaborators` or explicit arguments.  `pow(x, 2)` is the square `x ^ 2`.
* The definitions after `applyReinforcementToLastAction` are not translations
  of source functions: they are concrete inputs for the evaluations, closed
  forms of what the loops compute, and the updates as the specification and as
  the amended statements word them.
-/

namespace WireFit

/-- One control point: `struct Wire { std::vector<double> action; double reward; }`. -/
structure Wire (α : Type) where
  action : List α
  reward : α
deriving DecidableEq, Repr

/-- The members of the class `WireFitQLearn`. -/
structure WireFitQLearn (α β ν : Type) where
  backprop : β
  network : ν
  learningRate : α
  devaluationFactor : α
  actionDimensions : Nat
  numberOfWires : Nat
  scalingFactorToMillis : α
  smoothingFactor : α
  e : α
  gradientDescentErrorTarget : α
  gradientDescentLearningRate : α
  gradientDescentMaxIterations : Int
  lastAction : List α
  lastState : List α
deriving DecidableEq

/-- The code the source file calls but does not define. -/
structure Collaborators (α β ν : Type) where
  /-- `NeuralNet::getOutput`. -/
  getOutput : ν → List α → List α
  /-- `Backpropagation::trainOnData(network, inputs, targets)`; it may change
  both the trainer and the network. -/
  trainOnData : β → ν → List (List α) → List (List α) → β × ν
  /-- `exp` of the C library. -/
  exp : α → α
  /-- `pow` of the C library at a real exponent. -/
  pow : α → α → α

section Codec

variable {α : Type} [LinearOrderedField α]

/-- `v[i] = x` on a vector: defined only for an index in range. -/
def vecSet (v : List α) (i : Nat) (x : α) : Option (List α) :=
  if i < v.length then some (v.set i x) else none

/-- The inner loop of `getWires` (line 123) for wire `a`:
`for b < actionDimensions: wire.action[a] = rawOutput[currentIndex + b]`,
started from the zero vector `std::vector<double>(actionDimensions)`.
The written slot is `a`, as in the source. -/
def getWiresAction (actionDimensions : Nat) (rawOutput : List α) (a currentIndex : Nat) :
    Option (List α) :=
  (List.range actionDimensions).foldlM
    (fun wireAction b => do
      let v ← rawOutput[currentIndex + b]?
      vecSet wireAction a v)
    (List.replicate actionDimensions 0)

/-- The body of the outer loop of `getWires` (lines 120-127) for wire `a`. -/
def getWiresWire (actionDimensions : Nat) (rawOutput : List α) (a : Nat) : Option (Wire α) := do
  let currentIndex := a * (actionDimensions + 1)
  let wireAction ← getWiresAction actionDimensions rawOutput a currentIndex
  let reward ← rawOutput[currentIndex + actionDimensions]?
  some { action := wireAction, reward := reward }

/-- `getWires` as a function of the approximator's raw output (lines 116-130):
`wires[a]` is assigned for `a = 0, ..., numberOfWires - 1` in turn. -/
def getWiresOfRawOutput (numberOfWires actionDimensions : Nat) (rawOutput : List α) :
    Option (List (Wire α)) :=
  (List.range numberOfWires).mapM (getWiresWire actionDimensions rawOutput)

/-- The inner loop of `getRawOutput` (line 139):
`for b < wire.action.size(): rawOutput[currentIndex + b] = wire.action[b]`. -/
def getRawOutputAction (wire : Wire α) (currentIndex : Nat) (rawOutput : List α) :
    Option (List α) :=
  (List.range wire.action.length).foldlM
    (fun raw b => do
      let v ← wire.action[b]?
      vecSet raw (currentIndex + b) v)
    rawOutput

/-- `getRawOutput` (lines 133-145): the vector has
`wires.size() * (actionDimensions + 1)` zero entries before the loop. -/
def getRawOutput (actionDimensions : Nat) (wires : List (Wire α)) : Option (List α) :=
  (List.range wires.length).foldlM
    (fun raw a => do
      let currentIndex := a * (actionDimensions + 1)
      let wire ← wires[a]?
      let raw ← getRawOutputAction wire currentIndex raw
      vecSet raw (currentIndex + wire.action.length) wire.reward)
    (List.replicate (wires.length * (actionDimensions + 1)) 0)

end Codec

section Interpolator

variable {α β ν : Type} [LinearOrderedField α]

/-- The scan that opens `rewardDerivative`, `actionTermDerivative`,
`weightedSum` and `normalize` (lines 194-195, 203-204, 223-224, 235-236):
`maxRewardFromWires = -9999999`, raised by every strictly greater reward. -/
def maxRewardFromWires (wires : List (Wire α)) : α :=
  wires.foldl (fun m w => if w.reward > m then w.reward else m) (-9999999)

/-- The loop of `distanceBetweenWireAndAction` (line 217), the two vectors
read in step: `euclideanNorm += pow(action[a] - wire.action[a], 2)` for every
`a < action.size()`.  It reads past the end of `wire.action` when the action
is the longer vector. -/
def euclideanNormLoop : List α → List α → α → Option α
  | [], _, euclideanNorm => some euclideanNorm
  | _ :: _, [], _ => none
  | x :: action, y :: wireAction, euclideanNorm =>
    euclideanNormLoop action wireAction (euclideanNorm + (x - y) ^ 2)

/-- `distanceBetweenWireAndAction` (lines 215-220). -/
def distanceBetweenWireAndAction (q : WireFitQLearn α β ν) (wire : Wire α) (action : List α)
    (maxReward : α) : Option α := do
  let euclideanNorm ← euclideanNormLoop action wire.action 0
  some (euclideanNorm ^ 2 + q.smoothingFactor * (maxReward - wire.reward) + q.e)

/-- `weightedSum` (lines 222-232). -/
def weightedSum (q : WireFitQLearn α β ν) (wires : List (Wire α)) (action : List α) :
    Option α :=
  wires.foldlM
    (fun answer a => do
      let distance ← distanceBetweenWireAndAction q a action (maxRewardFromWires wires)
      some (answer + a.reward / distance))
    0

/-- `normalize` (lines 234-244). -/
def normalize (q : WireFitQLearn α β ν) (wires : List (Wire α)) (action : List α) :
    Option α :=
  wires.foldlM
    (fun answer a => do
      let distance ← distanceBetweenWireAndAction q a action (maxRewardFromWires wires)
      some (answer + 1 / distance))
    0

/-- `getRewardUsingInterpolator` (lines 211-213). -/
def getRewardUsingInterpolator (q : WireFitQLearn α β ν) (controlWires : List (Wire α))
    (action : List α) : Option α := do
  let wsum ← weightedSum q controlWires action
  let norm ← normalize q controlWires action
  some (wsum / norm)

/-- `rewardDerivative` (lines 193-200). -/
def rewardDerivative (q : WireFitQLearn α β ν) (action : List α) (wire : Wire α)
    (controlWires : List (Wire α)) : Option α := do
  let norm ← normalize q controlWires action
  let wsum ← weightedSum q controlWires action
  let distance ← distanceBetweenWireAndAction q wire action (maxRewardFromWires controlWires)
  some ((norm * (distance + wire.reward * q.smoothingFactor) - wsum * q.smoothingFactor)
    / (norm * distance) ^ 2)

/-- `actionTermDerivative` (lines 202-209). -/
def actionTermDerivative (q : WireFitQLearn α β ν) (actionTerm wireActionTerm : α)
    (action : List α) (wire : Wire α) (controlWires : List (Wire α)) : Option α := do
  let norm ← normalize q controlWires action
  let wsum ← weightedSum q controlWires action
  let distance ← distanceBetweenWireAndAction q wire action (maxRewardFromWires controlWires)
  some (((wsum - norm * wire.reward) * 2 * (wireActionTerm - actionTerm))
    / (norm * distance) ^ 2)

end Interpolator

section Adjuster

variable {α β ν : Type} [LinearOrderedField α]

/-- Line 182, one pass of the inner loop of `newControlWires`:
`controlWires[a].action[b] -= gradientDescentLearningRate * actionTermDerivative(...)`,
the derivative evaluated on the vector as it stands. -/
def newControlWiresActionStep (q : WireFitQLearn α β ν) (action : List α) (a : Nat)
    (controlWires : List (Wire α)) (b : Nat) : Option (List (Wire α)) := do
  let wire ← controlWires[a]?
  let actionTerm ← action[b]?
  let wireActionTerm ← wire.action[b]?
  let derivative ← actionTermDerivative q actionTerm wireActionTerm action wire controlWires
  let newTerm := wireActionTerm - q.gradientDescentLearningRate * derivative
  some (controlWires.set a { wire with action := wire.action.set b newTerm })

/-- Lines 180-183, one pass of the `for a` loop of `newControlWires`: the
reward of wire `a` is overwritten first, then its action components in turn. -/
def newControlWiresWireStep (q : WireFitQLearn α β ν) (action : List α)
    (controlWires : List (Wire α)) (a : Nat) : Option (List (Wire α)) := do
  let wire ← controlWires[a]?
  let derivative ← rewardDerivative q action wire controlWires
  let controlWires := controlWires.set a
    { wire with reward := wire.reward - q.gradientDescentLearningRate * derivative }
  (List.range wire.action.length).foldlM (newControlWiresActionStep q action a) controlWires

/-- Lines 179-184, the `for a` loop of `newControlWires`. -/
def newControlWiresSweep (q : WireFitQLearn α β ν) (action : List α)
    (controlWires : List (Wire α)) : Option (List (Wire α)) :=
  (List.range controlWires.length).foldlM (newControlWiresWireStep q action) controlWires

/-- The `do ... while` of `newControlWires` (lines 178-188), entered with the
current wires and the counter `iterations`; it returns the wires and the final
counter.  The first argument bounds the number of passes and is there for
termination only: `newControlWiresLoop_fuel` shows that the bound chosen by
`newControlWires` is never reached. -/
def newControlWiresLoop (q : WireFitQLearn α β ν) (newReward : α) (action : List α) :
    Nat → List (Wire α) → Int → Option (List (Wire α) × Int)
  | 0, _, _ => none
  | fuel + 1, controlWires, iterations => do
    let controlWires ← newControlWiresSweep q action controlWires
    let value ← getRewardUsingInterpolator q controlWires action
    let error := (newReward - value) ^ 2
    let iterations := iterations + 1
    if error > q.gradientDescentErrorTarget ∧ iterations < q.gradientDescentMaxIterations then
      newControlWiresLoop q newReward action fuel controlWires iterations
    else
      some (controlWires, iterations)

/-- `newControlWires` (lines 172-191) together with the number of passes of
the loop body it made. -/
def newControlWiresCount (q : WireFitQLearn α β ν) (newReward : α) (action : List α)
    (controlWires : List (Wire α)) : Option (List (Wire α) × Int) :=
  newControlWiresLoop q newReward action (max 1 q.gradientDescentMaxIterations.toNat)
    controlWires 0

/-- `newControlWires` (lines 172-191). -/
def newControlWires (q : WireFitQLearn α β ν) (newReward : α) (action : List α)
    (controlWires : List (Wire α)) : Option (List (Wire α)) :=
  (newControlWiresCount q newReward action controlWires).map Prod.fst

end Adjuster

section Agent

variable {α β ν : Type} [LinearOrderedField α]

/-- `getWires` (lines 115-131): the wires decoded from the network's output
for `state`. -/
def getWires (c : Collaborators α β ν) (q : WireFitQLearn α β ν) (state : List α) :
    Option (List (Wire α)) :=
  getWiresOfRawOutput q.numberOfWires q.actionDimensions (c.getOutput q.network state)

/-- The loop of `highestReward` (lines 150-152). -/
def highestRewardOfWires (wires : List (Wire α)) : α :=
  wires.foldl (fun bestReward w => if w.reward > bestReward then w.reward else bestReward)
    (-99999)

/-- `highestReward` (lines 148-155). -/
def highestReward (c : Collaborators α β ν) (q : WireFitQLearn α β ν) (state : List α) :
    Option α :=
  (getWires c q state).map highestRewardOfWires

/-- The loop of `bestAction` (lines 159-167); the state of the loop is the
pair `(bestAction, bestReward)`, which starts as `({}, -99999)`. -/
def bestActionLoop (wires : List (Wire α)) : List α × α :=
  wires.foldl (fun best w => if w.reward > best.2 then (w.action, w.reward) else best)
    ([], -99999)

/-- `bestAction` (lines 157-170). -/
def bestAction (c : Collaborators α β ν) (q : WireFitQLearn α β ν) (state : List α) :
    Option (List α) :=
  (getWires c q state).map (fun wires => (bestActionLoop wires).1)

/-- `chooseBestAction` (lines 49-54): the new agent and the returned action. -/
def chooseBestAction (c : Collaborators α β ν) (q : WireFitQLearn α β ν)
    (currentState : List α) : Option (WireFitQLearn α β ν × List α) := do
  let action ← bestAction c q currentState
  some ({ q with lastAction := action, lastState := currentState }, action)

/-- The first loop of `chooseBoltzmanAction` (lines 62-66): the vector
`exponentTerms` and `sumOfExponentTerms`. -/
def exponentTermsLoop (c : Collaborators α β ν) (explorationConstant : α)
    (wires : List (Wire α)) : List α × α :=
  wires.foldl
    (fun acc w =>
      let exponentTerm := c.exp (w.reward / explorationConstant)
      (acc.1 ++ [exponentTerm], acc.2 + exponentTerm))
    ([], 0)

/-- The second loop of `chooseBoltzmanAction` (lines 69-76) from index `a` on,
`remaining` being `wires[a], wires[a+1], ...`: the index of the selected wire,
or `none` when the loop ends without a selection (or `exponentTerms[a]` is out
of range). -/
def selectionLoop (exponentTerms : List α) (sumOfExponentTerms determiner : α) :
    List (Wire α) → Nat → α → Option Nat
  | [], _, _ => none
  | _ :: remaining, a, sumOfProbabilities => do
    let exponentTerm ← exponentTerms[a]?
    let sumOfProbabilities := sumOfProbabilities + exponentTerm / sumOfExponentTerms
    if sumOfProbabilities ≥ determiner then some a
    else
      selectionLoop exponentTerms sumOfExponentTerms determiner remaining (a + 1) sumOfProbabilities

/-- `chooseBoltzmanAction` (lines 56-80).  `randValue` is the value returned by
`rand()` and `randMax` is `RAND_MAX`.  The result is `none` when the function
reaches `throw 1` (or `getWires` has an access out of range); otherwise it is
the new agent and the returned action. -/
def chooseBoltzmanAction (c : Collaborators α β ν) (q : WireFitQLearn α β ν)
    (randValue randMax : Nat) (currentState : List α) (explorationConstant : α) :
    Option (WireFitQLearn α β ν × List α) := do
  let determiner : α := (randValue : α) / (randMax : α)
  let wires ← getWires c q currentState
  let terms := exponentTermsLoop c explorationConstant wires
  let a ← selectionLoop terms.1 terms.2 determiner wires 0 0
  let wire ← wires[a]?
  some ({ q with lastAction := wire.action, lastState := currentState }, wire.action)

/-- `applyReinforcementToLastAction` (lines 82-93): the agent after the call.
The single call of the trainer is `trainOnData(network, {lastState},
{getRawOutput(newContolWires)})`. -/
def applyReinforcementToLastAction (c : Collaborators α β ν) (q : WireFitQLearn α β ν)
    (reward : α) (newState : List α) (elapsedTimeMillis : α) :
    Option (WireFitQLearn α β ν) := do
  let controlWires ← getWires c q q.lastState
  let scalingFactor := q.scalingFactorToMillis * elapsedTimeMillis
  let oldRewardForLastAction ← getRewardUsingInterpolator q controlWires q.lastAction
  let highestNew ← highestReward c q newState
  let highestLast ← highestReward c q q.lastState
  let feedback := ((1 / scalingFactor) * (reward + (c.pow q.devaluationFactor scalingFactor * highestNew)))
    + (1 - 1 / scalingFactor) * highestLast
  let newRewardForLastAction := ((1 - q.learningRate) * oldRewardForLastAction)
    + (q.learningRate * feedback)
  let newContolWires ← newControlWires q newRewardForLastAction q.lastAction controlWires
  let target ← getRawOutput q.actionDimensions newContolWires
  let trained := c.trainOnData q.backprop q.network [q.lastState] [target]
  some { q with backprop := trained.1, network := trained.2 }

end Agent

section Concrete

/-- A trainer state that is the list of the examples submitted so far. -/
abbrev TrainingLog := List (List ℚ × List ℚ)

/-- A positive stand-in for `exp` on `ℚ`: the power of two at the integer part. -/
def expStandIn (x : ℚ) : ℚ := 2 ^ ⌊x⌋

/-- A stand-in for the double-precision `exp`, which returns `0.0` for every
argument below `-745.14` (underflow) and a positive number elsewhere. -/
def expUnderflow (x : ℚ) : ℚ := if x < -746 then 0 else expStandIn x

/-- A stand-in for `pow` on `ℚ`, exact at exponents that are natural numbers. -/
def powStandIn (x y : ℚ) : ℚ := x ^ ⌊y⌋.toNat

/-- Concrete collaborators: the network returns its input as its output and
the trainer appends the submitted examples to its log. -/
def recordingCollaborators (exp : ℚ → ℚ) : Collaborators ℚ TrainingLog Unit where
  getOutput := fun _ state => state
  trainOnData := fun log network inputs targets => (log ++ inputs.zip targets, network)
  exp := exp
  pow := powStandIn

/-- The agent the first constructor builds (lines 5-20) for learning rate `1/2`,
devaluation factor `1/2` and the given sizes, with
`gradientDescentMaxIterations` and the recorded action and state as given. -/
def sampleAgent (actionDimensions numberOfWires : Nat) (maxIterations : Int)
    (lastAction lastState : List ℚ) : WireFitQLearn ℚ TrainingLog Unit where
  backprop := []
  network := ()
  learningRate := 1 / 2
  devaluationFactor := 1 / 2
  actionDimensions := actionDimensions
  numberOfWires := numberOfWires
  scalingFactorToMillis := 1 / 2
  smoothingFactor := 1 / 5
  e := 1 / 100
  gradientDescentErrorTarget := 1 / 100000
  gradientDescentLearningRate := 1 / 2
  gradientDescentMaxIterations := maxIterations
  lastAction := lastAction
  lastState := lastState

/-- The two wires of the specification's end-to-end example. -/
def sampleWires : List (Wire ℚ) := [⟨[1 / 2], 1⟩, ⟨[-1 / 5], 2⟩]

end Concrete

section ClosedForms

variable {α β ν : Type} [LinearOrderedField α]

/-- The value `euclideanNorm` has after the loop of
`distanceBetweenWireAndAction`: the sum of the squared differences of the
components of `action` and `wireAction`. -/
def squaredDifferences (action wireAction : List α) : α :=
  (List.zipWith (fun x y => (x - y) ^ 2) action wireAction).sum

/-- The value returned by `distanceBetweenWireAndAction` when no read is out
of range. -/
def distanceValue (q : WireFitQLearn α β ν) (wire : Wire α) (action : List α)
    (maxReward : α) : α :=
  squaredDifferences action wire.action ^ 2 + q.smoothingFactor * (maxReward - wire.reward) + q.e

/-- The distance of wire `w` from the action of wire `k` in the limit `e = 0`,
when `k` has the maximum reward: the part of `distanceValue` that is not `e`. -/
def limitDistance (smoothingFactor : α) (k w : Wire α) : α :=
  squaredDifferences k.action w.action ^ 2 + smoothingFactor * (k.reward - w.reward)

/-- The constant of the bound `|interpolatedValue - k.reward| ≤ constant * e`
at the action of a maximum-reward wire `k`. -/
def nearWireConstant (smoothingFactor : α) (k : Wire α) (wires : List (Wire α)) : α :=
  (wires.map (fun w => |w.reward - k.reward| / limitDistance smoothingFactor k w)).sum

/-- The sum that `weightedSum` accumulates over the wires `l` when the maximum
reward is `m` and no read is out of range. -/
def weightedPart (q : WireFitQLearn α β ν) (action : List α) (m : α) (l : List (Wire α)) : α :=
  (l.map (fun u => u.reward / distanceValue q u action m)).sum

/-- The sum that `normalize` accumulates over the wires `l` when the maximum
reward is `m` and no read is out of range. -/
def normPart (q : WireFitQLearn α β ν) (action : List α) (m : α) (l : List (Wire α)) : α :=
  (l.map (fun u => 1 / distanceValue q u action m)).sum

/-- Every wire of the set has an action of the length of the query action. -/
def Fits (action : List α) (wires : List (Wire α)) : Prop :=
  ∀ w ∈ wires, w.action.length = action.length

end ClosedForms

section Shape

variable {α : Type}

/-- The shape of a wire set: the lengths of the action vectors, in wire order. -/
def shape (wires : List (Wire α)) : List Nat :=
  wires.map (fun w => w.action.length)

end Shape

section Iterates

variable {α β ν : Type} [LinearOrderedField α]

/-- The wire set after `n` passes of the body of the loop of `newControlWires`
(lines 179-184), without any stopping test; `newReward` is not an argument. -/
def sweepIterate (q : WireFitQLearn α β ν) (action : List α) :
    Nat → List (Wire α) → Option (List (Wire α))
  | 0, controlWires => some controlWires
  | n + 1, controlWires =>
    (newControlWiresSweep q action controlWires).bind (sweepIterate q action n)

end Iterates

section BoltzmannSpec

variable {α β ν : Type} [LinearOrderedField α]

end BoltzmannSpec

section SimultaneousSpec

variable {α β ν : Type} [LinearOrderedField α]

/-- One iteration of the wire adjuster as the specification words it: every
reward and every action component is replaced using derivatives evaluated on
the wire set `wires` as it was before the iteration, and on the wire's value
before the iteration. -/
def simultaneousUpdate (q : WireFitQLearn α β ν) (action : List α) (wires : List (Wire α)) :
    Option (List (Wire α)) :=
  wires.mapM (fun w => do
    let rewardStep ← rewardDerivative q action w wires
    let newAction ← (List.range w.action.length).mapM (fun b => do
      let actionTerm ← action[b]?
      let wireActionTerm ← w.action[b]?
      let actionStep ← actionTermDerivative q actionTerm wireActionTerm action w wires
      some (wireActionTerm - q.gradientDescentLearningRate * actionStep))
    some { action := newAction, reward := w.reward - q.gradientDescentLearningRate * rewardStep })

end SimultaneousSpec

section SequentialSpec

variable {α β ν : Type} [LinearOrderedField α]

/-- The in-place update of the action components of one wire, written on
lists.  The wire stands between the wires `done` (already replaced in this
pass) and `pending` (not yet touched), and has the already replaced reward
`reward`; `doneA` are its components already replaced and the last argument
the components still to do.  Each derivative is evaluated on the wire set as
it stands at that moment. -/
def sequentialActions (q : WireFitQLearn α β ν) (action : List α) (done : List (Wire α))
    (reward : α) (pending : List (Wire α)) : List α → List α → Option (List α)
  | doneA, [] => some doneA
  | doneA, y :: pendingA => do
    let x ← action[doneA.length]?
    let current : Wire α := { action := doneA ++ y :: pendingA, reward := reward }
    let d ← actionTermDerivative q x y action current (done ++ current :: pending)
    sequentialActions q action done reward pending
      (doneA ++ [y - q.gradientDescentLearningRate * d]) pendingA

/-- The in-place update of the wires, written on lists: `done` are the wires
already replaced in this pass and the last argument the wires still to do.
The reward of the next wire is replaced first, its derivative evaluated on the
replaced wires followed by the untouched ones, then its action components. -/
def sequentialWires (q : WireFitQLearn α β ν) (action : List α) :
    List (Wire α) → List (Wire α) → Option (List (Wire α))
  | done, [] => some done
  | done, w :: pending => do
    let d ← rewardDerivative q action w (done ++ w :: pending)
    let reward := w.reward - q.gradientDescentLearningRate * d
    let newAction ← sequentialActions q action done reward pending [] w.action
    sequentialWires q action (done ++ [{ action := newAction, reward := reward }]) pending

end SequentialSpec

section InterpolatorAgent

variable {α : Type} [LinearOrderedField α]

/-- An agent with the given `smoothingFactor` and `e` and the constructor's
values elsewhere, over any ordered field; only these two fields enter the
interpolator. -/
def interpolatorAgent (smoothingFactor e : α) : WireFitQLearn α Unit Unit where
  backprop := ()
  network := ()
  learningRate := 1 / 2
  devaluationFactor := 1 / 2
  actionDimensions := 1
  numberOfWires := 2
  scalingFactorToMillis := 1 / 2
  smoothingFactor := smoothingFactor
  e := e
  gradientDescentErrorTarget := 1 / 100000
  gradientDescentLearningRate := 1 / 2
  gradientDescentMaxIterations := 10000
  lastAction := []
  lastState := []

end InterpolatorAgent

/-! ## Folds in the `Option` monad and shapes of wire sets -/

section ShapeFacts

variable {α : Type}

theorem foldlM_preserves {σ ι : Type} (P : σ → Prop) (f : σ → ι → Option σ) (l : List ι)
    (hf : ∀ s i s', i ∈ l → P s → f s i = some s' → P s') (s s' : σ) (hs : P s)
    (h : l.foldlM f s = some s') : P s' := by
  induction l generalizing s with
  | nil =>
    simp only [List.foldlM_nil, Option.pure_def, Option.some.injEq] at h
    exact h ▸ hs
  | cons i l ih =>
    rw [List.foldlM_cons] at h
    cases hfi : f s i with
    | none => simp [hfi] at h
    | some s1 =>
      rw [hfi] at h
      exact ih (fun s i s' hi => hf s i s' (List.mem_cons_of_mem _ hi)) s1
        (hf s i s1 (List.mem_cons_self _ _) hs hfi) h

theorem foldlM_defined {σ ι : Type} (P : σ → Prop) (f : σ → ι → Option σ) (l : List ι)
    (hf : ∀ s i, i ∈ l → P s → ∃ s', f s i = some s' ∧ P s') (s : σ) (hs : P s) :
    ∃ s', l.foldlM f s = some s' ∧ P s' := by
  induction l generalizing s with
  | nil => exact ⟨s, rfl, hs⟩
  | cons i l ih =>
    obtain ⟨s1, h1, hP1⟩ := hf s i (List.mem_cons_self _ _) hs
    obtain ⟨s2, h2, hP2⟩ := ih (fun s i hi => hf s i (List.mem_cons_of_mem _ hi)) s1 hP1
    refine ⟨s2, ?_, hP2⟩
    rw [List.foldlM_cons, h1]
    exact h2

theorem shape_length (wires : List (Wire α)) : (shape wires).length = wires.length := by
  simp [shape]

theorem length_eq_of_shape_eq {wires wires' : List (Wire α)} (h : shape wires' = shape wires) :
    wires'.length = wires.length := by
  rw [← shape_length wires', h, shape_length]

theorem shape_set (wires : List (Wire α)) (a : Nat) (wire wire' : Wire α)
    (ha : wires[a]? = some wire) (hlen : wire'.action.length = wire.action.length) :
    shape (wires.set a wire') = shape wires := by
  apply List.ext_getElem?
  intro i
  simp only [shape, List.getElem?_map, List.getElem?_set]
  by_cases hi : a = i
  · subst hi
    have hlt : a < wires.length := by
      rcases Nat.lt_or_ge a wires.length with h | h
      · exact h
      · rw [List.getElem?_eq_none h] at ha
        cases ha
    simp [hlt, ha, hlen]
  · simp [hi]

theorem fits_iff_shape (action : List α) (wires : List (Wire α)) :
    Fits action wires ↔ ∀ n ∈ shape wires, n = action.length := by
  simp [Fits, shape]

theorem fits_of_shape_eq {action : List α} {wires wires' : List (Wire α)}
    (h : shape wires' = shape wires) (hfit : Fits action wires) : Fits action wires' := by
  rw [fits_iff_shape] at hfit ⊢
  rw [h]
  exact hfit

theorem mem_of_getElem?_eq_some {γ : Type} {l : List γ} {a : Nat} {x : γ}
    (h : l[a]? = some x) : x ∈ l := by
  rw [List.getElem?_eq_some] at h
  obtain ⟨hlt, rfl⟩ := h
  exact List.getElem_mem hlt

theorem vecSet_length (v v' : List α) (i : Nat) (x : α) (h : vecSet v i x = some v') :
    v'.length = v.length := by
  unfold vecSet at h
  split_ifs at h
  simp only [Option.some.injEq] at h
  rw [← h, List.length_set]

theorem vecSet_defined (v : List α) (i : Nat) (x : α) (h : i < v.length) :
    vecSet v i x = some (v.set i x) := by
  simp [vecSet, h]

theorem getRawOutputAction_length (wire : Wire α) (currentIndex : Nat) (raw raw' : List α)
    (h : getRawOutputAction wire currentIndex raw = some raw') : raw'.length = raw.length := by
  unfold getRawOutputAction at h
  refine foldlM_preserves (fun s : List α => s.length = raw.length) _ _
    (fun s b s' _ hs hstep => ?_) raw raw' rfl h
  simp only [Option.bind_eq_bind, Option.bind_eq_some] at hstep
  obtain ⟨v, _, hv⟩ := hstep
  show s'.length = raw.length
  rw [vecSet_length _ _ _ _ hv]
  exact hs

theorem getRawOutputAction_defined (wire : Wire α) (currentIndex : Nat) (raw : List α)
    (h : currentIndex + wire.action.length ≤ raw.length) :
    ∃ raw', getRawOutputAction wire currentIndex raw = some raw'
      ∧ raw'.length = raw.length := by
  unfold getRawOutputAction
  refine foldlM_defined (fun s : List α => s.length = raw.length) _ _
    (fun s b hb hs => ?_) raw rfl
  have hs' : s.length = raw.length := hs
  have hb' : b < wire.action.length := List.mem_range.mp hb
  have hlt : currentIndex + b < s.length := by omega
  refine ⟨s.set (currentIndex + b) wire.action[b], ?_, ?_⟩
  · simp [List.getElem?_eq_getElem hb', vecSet_defined _ _ _ hlt]
  · show (s.set (currentIndex + b) wire.action[b]).length = raw.length
    rw [List.length_set]
    exact hs'

theorem mapM_some_forall {ι γ : Type} (f : ι → Option γ) (P : γ → Prop)
    (hf : ∀ i y, f i = some y → P y) (l : List ι) (r : List γ) (h : l.mapM f = some r) :
    r.length = l.length ∧ ∀ y ∈ r, P y := by
  induction l generalizing r with
  | nil =>
    simp only [List.mapM_nil, Option.pure_def, Option.some.injEq] at h
    subst h
    simp
  | cons a l ih =>
    simp only [List.mapM_cons, Option.pure_def, Option.bind_eq_bind, Option.bind_eq_some,
      Option.some.injEq] at h
    obtain ⟨b, hb, bs, hbs, rfl⟩ := h
    obtain ⟨h1, h2⟩ := ih bs hbs
    refine ⟨by simp [h1], ?_⟩
    intro y hy
    rcases List.mem_cons.mp hy with rfl | hy
    · exact hf a _ hb
    · exact h2 y hy

end ShapeFacts

/-! ## The wire codec -/

/-- C1, at the failing input `numberOfWires = 1`, `actionDimensions = 2`,
raw output `[1, 2, 3]`: decoding gives the single wire `([2, 0], 3)`, because
both action components are stored in slot `0`, and encoding that wire gives
`[2, 0, 3]`, which is not the raw output. -/
theorem getRawOutput_getWires_failing :
    getWiresOfRawOutput 1 2 [(1 : ℚ), 2, 3] = some [⟨[2, 0], 3⟩]
      ∧ (getWiresOfRawOutput 1 2 [(1 : ℚ), 2, 3]).bind (getRawOutput 2) = some [2, 0, 3]
      ∧ (getWiresOfRawOutput 1 2 [(1 : ℚ), 2, 3]).bind (getRawOutput 2) ≠ some [1, 2, 3] := by
  decide!

/-- C2, at the failing input `numberOfWires = 1`, `actionDimensions = 2`,
wire set `[([1, 2], 3)]`: the encoding is `[1, 2, 3]` and decoding it gives
`[([2, 0], 3)]`, so the action components are not recovered. -/
theorem getWires_getRawOutput_failing :
    getRawOutput 2 [(⟨[1, 2], 3⟩ : Wire ℚ)] = some [1, 2, 3]
      ∧ (getRawOutput 2 [(⟨[1, 2], 3⟩ : Wire ℚ)]).bind (getWiresOfRawOutput 1 2)
          = some [⟨[2, 0], 3⟩]
      ∧ (getRawOutput 2 [(⟨[1, 2], 3⟩ : Wire ℚ)]).bind (getWiresOfRawOutput 1 2)
          ≠ some [⟨[1, 2], 3⟩] := by
  decide!

/-- C3, at the input of the specification's own example, `numberOfWires = 2`,
`actionDimensions = 1`, raw output `[1/2, 1, -1/5, 2]`: wire `0` decodes to
`([1/2], 1)`, but for wire `1` the store `wire.action[1]` is out of range in a
vector of length `1`, so the decoding has no defined result. -/
theorem getWires_example_out_of_range :
    getWiresWire 1 [(1 / 2 : ℚ), 1, -1 / 5, 2] 0 = some ⟨[1 / 2], 1⟩
      ∧ vecSet (List.replicate 1 (0 : ℚ)) 1 (-1 / 5) = none
      ∧ getWiresWire 1 [(1 / 2 : ℚ), 1, -1 / 5, 2] 1 = none
      ∧ getWiresOfRawOutput 2 1 [(1 / 2 : ℚ), 1, -1 / 5, 2] = none := by
  decide!

/-! ## Greedy selection -/

/-- C4, at the failing input `numberOfWires = 1`, `actionDimensions = 1`,
network output `[7, -100000]`: the only wire is `([7], -100000)`, its reward
is not above the initial `bestReward = -99999`, and `bestAction` returns the
empty vector instead of `[7]`. -/
theorem bestAction_below_sentinel :
    getWires (recordingCollaborators expStandIn) (sampleAgent 1 1 1 [] []) [7, -100000]
        = some [⟨[7], -100000⟩]
      ∧ bestAction (recordingCollaborators expStandIn) (sampleAgent 1 1 1 [] []) [7, -100000]
        = some [] := by
  decide!

/-! ## Boltzmann selection -/

/-- C5, at the failing input `numberOfWires = 1`, `actionDimensions = 1`,
network output `[0, -1000]`, `explorationConstant = 1`, `rand() = RAND_MAX`
(determiner `1`): the exponent term `exp(-1000)` underflows to `0`, no
cumulative sum reaches the determiner, and the function ends in `throw 1`
although there is a wire to return. -/
theorem chooseBoltzmanAction_throws :
    getWires (recordingCollaborators expUnderflow) (sampleAgent 1 1 1 [] []) [0, -1000]
        = some [⟨[0], -1000⟩]
      ∧ selectionLoop [expUnderflow (-1000 / 1)] (0 + expUnderflow (-1000 / 1)) 1
          [(⟨[0], -1000⟩ : Wire ℚ)] 0 0 = none
      ∧ (chooseBoltzmanAction (recordingCollaborators expUnderflow) (sampleAgent 1 1 1 [] [])
          2147483647 2147483647 [0, -1000] 1).isNone = true := by
  decide!

section CodecFacts

variable {α : Type} [LinearOrderedField α]

theorem getRawOutput_length (actionDimensions : Nat) (wires : List (Wire α)) (raw : List α)
    (h : getRawOutput actionDimensions wires = some raw) :
    raw.length = wires.length * (actionDimensions + 1) := by
  unfold getRawOutput at h
  refine foldlM_preserves
    (fun s : List α => s.length = wires.length * (actionDimensions + 1)) _ _
    (fun s a s' _ hs hstep => ?_) _ raw (by simp) h
  simp only [Option.bind_eq_bind, Option.bind_eq_some] at hstep
  obtain ⟨wire, _, raw1, h1, h2⟩ := hstep
  show s'.length = wires.length * (actionDimensions + 1)
  rw [vecSet_length _ _ _ _ h2, getRawOutputAction_length _ _ _ _ h1]
  exact hs

theorem getRawOutput_defined (actionDimensions : Nat) (wires : List (Wire α))
    (hw : ∀ w ∈ wires, w.action.length ≤ actionDimensions) :
    ∃ raw, getRawOutput actionDimensions wires = some raw
      ∧ raw.length = wires.length * (actionDimensions + 1) := by
  unfold getRawOutput
  refine foldlM_defined
    (fun s : List α => s.length = wires.length * (actionDimensions + 1)) _ _
    (fun s a ha hs => ?_) _ (by simp)
  have hs' : s.length = wires.length * (actionDimensions + 1) := hs
  have ha' : a < wires.length := List.mem_range.mp ha
  have hlen : wires[a].action.length ≤ actionDimensions := hw _ (List.getElem_mem ha')
  have hmul : a * (actionDimensions + 1) + (actionDimensions + 1)
      ≤ wires.length * (actionDimensions + 1) := by
    have := Nat.mul_le_mul_right (actionDimensions + 1) (Nat.succ_le_of_lt ha')
    rw [Nat.succ_mul] at this
    exact this
  obtain ⟨raw1, h1, hl1⟩ := getRawOutputAction_defined wires[a]
    (a * (actionDimensions + 1)) s (by omega)
  have hlt : a * (actionDimensions + 1) + wires[a].action.length < raw1.length := by omega
  refine ⟨raw1.set (a * (actionDimensions + 1) + wires[a].action.length) wires[a].reward,
    ?_, ?_⟩
  · simp [List.getElem?_eq_getElem ha', h1, vecSet_defined _ _ _ hlt]
  · show (raw1.set _ _).length = wires.length * (actionDimensions + 1)
    rw [List.length_set, hl1]
    exact hs'

theorem getWiresAction_length (actionDimensions : Nat) (rawOutput : List α)
    (a currentIndex : Nat) (wireAction : List α)
    (h : getWiresAction actionDimensions rawOutput a currentIndex = some wireAction) :
    wireAction.length = actionDimensions := by
  unfold getWiresAction at h
  refine foldlM_preserves (fun s : List α => s.length = actionDimensions) _ _
    (fun s b s' _ hs hstep => ?_) _ wireAction (by simp) h
  simp only [Option.bind_eq_bind, Option.bind_eq_some] at hstep
  obtain ⟨v, _, hv⟩ := hstep
  show s'.length = actionDimensions
  rw [vecSet_length _ _ _ _ hv]
  exact hs

theorem getWiresOfRawOutput_shape (numberOfWires actionDimensions : Nat) (rawOutput : List α)
    (wires : List (Wire α))
    (h : getWiresOfRawOutput numberOfWires actionDimensions rawOutput = some wires) :
    wires.length = numberOfWires ∧ ∀ w ∈ wires, w.action.length = actionDimensions := by
  have := mapM_some_forall (getWiresWire actionDimensions rawOutput)
    (fun w => w.action.length = actionDimensions)
    (fun a w hw => by
      simp only [getWiresWire, Option.bind_eq_bind, Option.bind_eq_some,
        Option.some.injEq] at hw
      obtain ⟨wireAction, hwa, reward, _, rfl⟩ := hw
      exact getWiresAction_length _ _ _ _ _ hwa)
    (List.range numberOfWires) wires h
  simpa using this

end CodecFacts

/-! ## The interpolator -/

section InterpolatorFacts

variable {α β ν : Type} [LinearOrderedField α]

theorem euclideanNormLoop_eq (action wireAction : List α) (acc : α)
    (h : action.length ≤ wireAction.length) :
    euclideanNormLoop action wireAction acc
      = some (acc + squaredDifferences action wireAction) := by
  induction action generalizing wireAction acc with
  | nil => simp [euclideanNormLoop, squaredDifferences]
  | cons x xs ih =>
    cases wireAction with
    | nil => simp at h
    | cons y ys =>
      simp only [List.length_cons, Nat.add_le_add_iff_right] at h
      rw [euclideanNormLoop, ih ys _ h]
      simp [squaredDifferences, add_assoc]

theorem euclideanNormLoop_eq_none (action wireAction : List α) (acc : α)
    (h : wireAction.length < action.length) :
    euclideanNormLoop action wireAction acc = none := by
  induction action generalizing wireAction acc with
  | nil => simp at h
  | cons x xs ih =>
    cases wireAction with
    | nil => simp [euclideanNormLoop]
    | cons y ys =>
      simp only [List.length_cons, Nat.add_lt_add_iff_right] at h
      simp [euclideanNormLoop, ih ys _ h]

theorem squaredDifferences_nonneg (action wireAction : List α) :
    0 ≤ squaredDifferences action wireAction := by
  apply List.sum_nonneg
  intro z hz
  rw [List.mem_iff_get] at hz
  obtain ⟨i, rfl⟩ := hz
  simp only [List.get_eq_getElem, List.getElem_zipWith]
  positivity

theorem squaredDifferences_self (action : List α) : squaredDifferences action action = 0 := by
  induction action with
  | nil => simp [squaredDifferences]
  | cons x xs ih =>
    simp only [squaredDifferences] at ih
    simp [squaredDifferences, ih]

theorem distanceBetweenWireAndAction_eq (q : WireFitQLearn α β ν) (wire : Wire α)
    (action : List α) (maxReward : α) (h : action.length ≤ wire.action.length) :
    distanceBetweenWireAndAction q wire action maxReward
      = some (distanceValue q wire action maxReward) := by
  simp [distanceBetweenWireAndAction, distanceValue, euclideanNormLoop_eq _ _ _ h]

theorem foldlM_add_some {γ : Type} (g : γ → Option α) (g' : γ → α) (h : γ → α → α)
    (l : List γ) (hl : ∀ a ∈ l, g a = some (g' a)) (init : α) :
    l.foldlM (fun acc a => (g a).bind (fun d => some (acc + h a d))) init
      = some (init + (l.map (fun a => h a (g' a))).sum) := by
  induction l generalizing init with
  | nil => simp
  | cons a l ih =>
    have ha := hl a (List.mem_cons_self a l)
    have hl' : ∀ b ∈ l, g b = some (g' b) := fun b hb => hl b (List.mem_cons_of_mem a hb)
    simp [List.foldlM_cons, ha, ih hl', add_assoc]

theorem maxRewardFromWires_ge_aux (l : List (Wire α)) (m : α) :
    m ≤ l.foldl (fun m w => if w.reward > m then w.reward else m) m
      ∧ ∀ w ∈ l, w.reward ≤ l.foldl (fun m w => if w.reward > m then w.reward else m) m := by
  induction l generalizing m with
  | nil => simp
  | cons a l ih =>
    simp only [List.foldl_cons, List.mem_cons, forall_eq_or_imp]
    obtain ⟨h1, h2⟩ := ih (if a.reward > m then a.reward else m)
    refine ⟨?_, ?_, h2⟩
    · refine le_trans ?_ h1
      split_ifs with h
      · exact le_of_lt h
      · exact le_refl _
    · refine le_trans ?_ h1
      split_ifs with h
      · exact le_refl _
      · exact not_lt.mp h

theorem reward_le_maxRewardFromWires (wires : List (Wire α)) (w : Wire α) (hw : w ∈ wires) :
    w.reward ≤ maxRewardFromWires wires :=
  (maxRewardFromWires_ge_aux wires _).2 w hw

theorem maxRewardFromWires_le_aux (l : List (Wire α)) (m bound : α) (hm : m ≤ bound)
    (hl : ∀ w ∈ l, w.reward ≤ bound) :
    l.foldl (fun m w => if w.reward > m then w.reward else m) m ≤ bound := by
  induction l generalizing m with
  | nil => exact hm
  | cons a l ih =>
    simp only [List.foldl_cons]
    apply ih
    · split_ifs
      · exact hl a (List.mem_cons_self a l)
      · exact hm
    · exact fun w hw => hl w (List.mem_cons_of_mem a hw)

theorem maxRewardFromWires_eq_of_max (wires : List (Wire α)) (k : Wire α) (hk : k ∈ wires)
    (hmax : ∀ w ∈ wires, w.reward ≤ k.reward) (hsentinel : -9999999 ≤ k.reward) :
    maxRewardFromWires wires = k.reward :=
  le_antisymm (maxRewardFromWires_le_aux wires _ _ hsentinel hmax)
    (reward_le_maxRewardFromWires wires k hk)

theorem weightedSum_eq (q : WireFitQLearn α β ν) (wires : List (Wire α)) (action : List α)
    (h : Fits action wires) :
    weightedSum q wires action
      = some ((wires.map (fun w =>
          w.reward / distanceValue q w action (maxRewardFromWires wires))).sum) := by
  have := foldlM_add_some
    (fun w => distanceBetweenWireAndAction q w action (maxRewardFromWires wires))
    (fun w => distanceValue q w action (maxRewardFromWires wires))
    (fun w d => w.reward / d) wires
    (fun w hw => distanceBetweenWireAndAction_eq q w action _ (le_of_eq (h w hw).symm)) 0
  simpa [weightedSum] using this

theorem normalize_eq (q : WireFitQLearn α β ν) (wires : List (Wire α)) (action : List α)
    (h : Fits action wires) :
    normalize q wires action
      = some ((wires.map (fun w =>
          1 / distanceValue q w action (maxRewardFromWires wires))).sum) := by
  have := foldlM_add_some
    (fun w => distanceBetweenWireAndAction q w action (maxRewardFromWires wires))
    (fun w => distanceValue q w action (maxRewardFromWires wires))
    (fun _ d => 1 / d) wires
    (fun w hw => distanceBetweenWireAndAction_eq q w action _ (le_of_eq (h w hw).symm)) 0
  simpa [normalize] using this

theorem distanceValue_pos (q : WireFitQLearn α β ν) (wires : List (Wire α)) (w : Wire α)
    (action : List α) (hw : w ∈ wires) (he : 0 < q.e) (hs : 0 ≤ q.smoothingFactor) :
    0 < distanceValue q w action (maxRewardFromWires wires) := by
  have h1 : 0 ≤ squaredDifferences action w.action ^ 2 := by positivity
  have h2 : 0 ≤ q.smoothingFactor * (maxRewardFromWires wires - w.reward) :=
    mul_nonneg hs (sub_nonneg.mpr (reward_le_maxRewardFromWires wires w hw))
  unfold distanceValue
  linarith

theorem sum_map_pos {γ : Type} (l : List γ) (f : γ → α) (hl : l ≠ [])
    (hf : ∀ a ∈ l, 0 < f a) : 0 < (l.map f).sum := by
  cases l with
  | nil => exact absurd rfl hl
  | cons a l =>
    simp only [List.map_cons, List.sum_cons]
    have h1 : 0 < f a := hf a (List.mem_cons_self a l)
    have h2 : 0 ≤ (l.map f).sum := by
      apply List.sum_nonneg
      intro x hx
      obtain ⟨b, hb, rfl⟩ := List.mem_map.mp hx
      exact le_of_lt (hf b (List.mem_cons_of_mem a hb))
    linarith

theorem normalize_pos (q : WireFitQLearn α β ν) (wires : List (Wire α)) (action : List α)
    (hne : wires ≠ []) (hfit : Fits action wires) (he : 0 < q.e) (hs : 0 ≤ q.smoothingFactor) :
    ∃ norm wsum, normalize q wires action = some norm ∧ 0 < norm
      ∧ weightedSum q wires action = some wsum
      ∧ getRewardUsingInterpolator q wires action = some (wsum / norm) := by
  refine ⟨_, _, normalize_eq q wires action hfit, ?_, weightedSum_eq q wires action hfit, ?_⟩
  · apply sum_map_pos _ _ hne
    intro w hw
    exact one_div_pos.mpr (distanceValue_pos q wires w action hw he hs)
  · simp [getRewardUsingInterpolator, normalize_eq q wires action hfit,
      weightedSum_eq q wires action hfit]

/-- C12: for a wire `w` of the set and an action of the length of `w.action`,
with `e > 0` and `smoothingFactor ≥ 0`, `distanceBetweenWireAndAction` at the
maximum reward `m` the interpolator computes returns
`(Σ (action_i - w.action_i)^2)^2 + smoothingFactor * (m - w.reward) + e`, and
this value is strictly positive; when every wire of a non-empty set has an
action of that length, `normalize` returns a strictly positive number, so
the division in `getRewardUsingInterpolator` is by a positive divisor. -/
theorem distance_pos_and_normalize_pos (q : WireFitQLearn α β ν) (wires : List (Wire α))
    (action : List α) (he : 0 < q.e) (hs : 0 ≤ q.smoothingFactor) :
    (∀ w ∈ wires, w.action.length = action.length →
      ∃ d, distanceBetweenWireAndAction q w action (maxRewardFromWires wires) = some d
        ∧ d = ((List.zipWith (fun x y => (x - y) ^ 2) action w.action).sum) ^ 2
              + q.smoothingFactor * (maxRewardFromWires wires - w.reward) + q.e
        ∧ 0 < d)
    ∧ (wires ≠ [] → Fits action wires →
      ∃ norm wsum, normalize q wires action = some norm ∧ 0 < norm
        ∧ weightedSum q wires action = some wsum
        ∧ getRewardUsingInterpolator q wires action = some (wsum / norm)) := by
  constructor
  · intro w hw hlen
    refine ⟨_, distanceBetweenWireAndAction_eq q w action _ (le_of_eq hlen.symm), rfl, ?_⟩
    exact distanceValue_pos q wires w action hw he hs
  · intro hne hfit
    exact normalize_pos q wires action hne hfit he hs

theorem distance_pos_and_normalize_pos_witness :
    ∃ norm wsum, normalize (sampleAgent 1 2 1 [] []) sampleWires [0] = some norm ∧ 0 < norm
      ∧ weightedSum (sampleAgent 1 2 1 [] []) sampleWires [0] = some wsum
      ∧ getRewardUsingInterpolator (sampleAgent 1 2 1 [] []) sampleWires [0]
          = some (wsum / norm) :=
  (distance_pos_and_normalize_pos (sampleAgent 1 2 1 [] []) sampleWires [0]
    (by decide!) (by decide!)).2 (by decide) (by unfold Fits; decide)

theorem sum_map_mul_const {γ : Type} (l : List γ) (f : γ → α) (c : α) :
    (l.map (fun a => c * f a)).sum = c * (l.map f).sum := by
  induction l with
  | nil => simp
  | cons a l ih => simp [ih, mul_add]

theorem sum_map_le_sum_map {γ : Type} (l : List γ) (f g : γ → α)
    (h : ∀ a ∈ l, f a ≤ g a) : (l.map f).sum ≤ (l.map g).sum := by
  induction l with
  | nil => simp
  | cons a l ih =>
    simp only [List.map_cons, List.sum_cons]
    have h1 := h a (List.mem_cons_self a l)
    have h2 := ih (fun b hb => h b (List.mem_cons_of_mem a hb))
    linarith

/-- C17: for a non-empty wire set whose actions have the length of the query
action, with `e > 0` and `smoothingFactor ≥ 0`, `getRewardUsingInterpolator`
returns a value `v` that is a convex combination of the rewards: `v` is the sum
of `weight_w * reward_w` for weights that are non-negative and sum to one, and
`v` is at least every lower bound of the rewards and at most every upper bound
of them, so it lies between the minimum and the maximum reward. -/
theorem getRewardUsingInterpolator_convex (q : WireFitQLearn α β ν) (wires : List (Wire α))
    (action : List α) (hne : wires ≠ []) (hfit : Fits action wires) (he : 0 < q.e)
    (hs : 0 ≤ q.smoothingFactor) :
    ∃ v, getRewardUsingInterpolator q wires action = some v
      ∧ (∃ weight : Wire α → α, (∀ w ∈ wires, 0 ≤ weight w)
          ∧ (wires.map weight).sum = 1
          ∧ v = (wires.map (fun w => weight w * w.reward)).sum)
      ∧ (∀ lo, (∀ w ∈ wires, lo ≤ w.reward) → lo ≤ v)
      ∧ (∀ hi, (∀ w ∈ wires, w.reward ≤ hi) → v ≤ hi) := by
  obtain ⟨norm, wsum, hnorm, hpos, hwsum, hval⟩ := normalize_pos q wires action hne hfit he hs
  have hnorm' := normalize_eq q wires action hfit
  have hwsum' := weightedSum_eq q wires action hfit
  rw [hnorm] at hnorm'
  rw [hwsum] at hwsum'
  have hn : norm = (wires.map (fun w =>
      1 / distanceValue q w action (maxRewardFromWires wires))).sum := Option.some.inj hnorm'
  have hw : wsum = (wires.map (fun w =>
      w.reward / distanceValue q w action (maxRewardFromWires wires))).sum :=
    Option.some.inj hwsum'
  have hd : ∀ w ∈ wires, 0 < distanceValue q w action (maxRewardFromWires wires) :=
    fun w hw => distanceValue_pos q wires w action hw he hs
  have hbound : ∀ c : α, c * norm
      = (wires.map (fun w => c * (1 / distanceValue q w action (maxRewardFromWires wires)))).sum := by
    intro c
    rw [sum_map_mul_const, hn]
  refine ⟨wsum / norm, hval, ?_, ?_, ?_⟩
  · refine ⟨fun w => (1 / norm) * (1 / distanceValue q w action (maxRewardFromWires wires)),
      ?_, ?_, ?_⟩
    · intro w hw
      exact mul_nonneg (le_of_lt (one_div_pos.mpr hpos)) (le_of_lt (one_div_pos.mpr (hd w hw)))
    · rw [sum_map_mul_const, ← hn]
      field_simp
    · have : (fun w : Wire α =>
          (1 / norm) * (1 / distanceValue q w action (maxRewardFromWires wires)) * w.reward)
          = fun w => (1 / norm) * (w.reward / distanceValue q w action (maxRewardFromWires wires)) := by
        funext w
        ring
      rw [this, sum_map_mul_const, ← hw]
      ring
  · intro lo hlo
    rw [le_div_iff₀ hpos, hbound, hw]
    apply sum_map_le_sum_map
    intro w hw
    have := hd w hw
    rw [mul_one_div]
    exact div_le_div_of_nonneg_right (hlo w hw) (le_of_lt this)
  · intro hi hhi
    rw [div_le_iff₀ hpos, hbound, hw]
    apply sum_map_le_sum_map
    intro w hw
    have := hd w hw
    rw [mul_one_div]
    exact div_le_div_of_nonneg_right (hhi w hw) (le_of_lt this)

theorem getRewardUsingInterpolator_convex_witness :
    ∃ v, getRewardUsingInterpolator (sampleAgent 1 2 1 [] []) sampleWires [0] = some v
      ∧ (∃ weight : Wire ℚ → ℚ, (∀ w ∈ sampleWires, 0 ≤ weight w)
          ∧ (sampleWires.map weight).sum = 1
          ∧ v = (sampleWires.map (fun w => weight w * w.reward)).sum)
      ∧ (∀ lo, (∀ w ∈ sampleWires, lo ≤ w.reward) → lo ≤ v)
      ∧ (∀ hi, (∀ w ∈ sampleWires, w.reward ≤ hi) → v ≤ hi) :=
  getRewardUsingInterpolator_convex (sampleAgent 1 2 1 [] []) sampleWires [0]
    (by decide) (by unfold Fits; decide) (by decide!) (by decide!)

end InterpolatorFacts

/-! ## The wire adjuster -/

section AdjusterFacts

variable {α β ν : Type} [LinearOrderedField α]

theorem rewardDerivative_defined (q : WireFitQLearn α β ν) (action : List α) (wire : Wire α)
    (controlWires : List (Wire α)) (hfit : Fits action controlWires)
    (hlen : wire.action.length = action.length) :
    ∃ d, rewardDerivative q action wire controlWires = some d := by
  simp [rewardDerivative, normalize_eq q controlWires action hfit,
    weightedSum_eq q controlWires action hfit,
    distanceBetweenWireAndAction_eq q wire action _ (le_of_eq hlen.symm)]

theorem actionTermDerivative_defined (q : WireFitQLearn α β ν) (actionTerm wireActionTerm : α)
    (action : List α) (wire : Wire α) (controlWires : List (Wire α))
    (hfit : Fits action controlWires) (hlen : wire.action.length = action.length) :
    ∃ d, actionTermDerivative q actionTerm wireActionTerm action wire controlWires = some d := by
  simp [actionTermDerivative, normalize_eq q controlWires action hfit,
    weightedSum_eq q controlWires action hfit,
    distanceBetweenWireAndAction_eq q wire action _ (le_of_eq hlen.symm)]

theorem newControlWiresActionStep_shape (q : WireFitQLearn α β ν) (action : List α) (a b : Nat)
    (controlWires result : List (Wire α))
    (h : newControlWiresActionStep q action a controlWires b = some result) :
    shape result = shape controlWires := by
  simp only [newControlWiresActionStep, Option.bind_eq_bind, Option.bind_eq_some,
    Option.some.injEq] at h
  obtain ⟨wire, hwire, _, _, _, _, _, _, rfl⟩ := h
  exact shape_set controlWires a wire _ hwire (by simp)

theorem newControlWiresWireStep_shape (q : WireFitQLearn α β ν) (action : List α) (a : Nat)
    (controlWires result : List (Wire α))
    (h : newControlWiresWireStep q action controlWires a = some result) :
    shape result = shape controlWires := by
  simp only [newControlWiresWireStep, Option.bind_eq_bind, Option.bind_eq_some] at h
  obtain ⟨wire, hwire, derivative, _, h⟩ := h
  have h0 : shape (controlWires.set a
      { wire with reward := wire.reward - q.gradientDescentLearningRate * derivative })
      = shape controlWires := shape_set controlWires a wire _ hwire rfl
  exact foldlM_preserves (fun s => shape s = shape controlWires)
    (newControlWiresActionStep q action a) _
    (fun s i s' _ hs hstep => (newControlWiresActionStep_shape q action a i s s' hstep).trans hs)
    _ _ h0 h

theorem newControlWiresSweep_shape (q : WireFitQLearn α β ν) (action : List α)
    (controlWires result : List (Wire α))
    (h : newControlWiresSweep q action controlWires = some result) :
    shape result = shape controlWires :=
  foldlM_preserves (fun s => shape s = shape controlWires) (newControlWiresWireStep q action) _
    (fun s i s' _ hs hstep => (newControlWiresWireStep_shape q action i s s' hstep).trans hs)
    _ _ rfl h

theorem getRewardUsingInterpolator_defined (q : WireFitQLearn α β ν)
    (controlWires : List (Wire α)) (action : List α) (hfit : Fits action controlWires) :
    ∃ v, getRewardUsingInterpolator q controlWires action = some v := by
  simp [getRewardUsingInterpolator, normalize_eq q controlWires action hfit,
    weightedSum_eq q controlWires action hfit]

theorem newControlWiresActionStep_defined (q : WireFitQLearn α β ν) (action : List α)
    (a b : Nat) (controlWires : List (Wire α)) (hfit : Fits action controlWires)
    (ha : a < controlWires.length) (hb : b < action.length) :
    ∃ result, newControlWiresActionStep q action a controlWires b = some result := by
  have hwire : controlWires[a]? = some controlWires[a] := List.getElem?_eq_getElem ha
  have hlen : controlWires[a].action.length = action.length :=
    hfit _ (List.getElem_mem ha)
  have hb' : b < controlWires[a].action.length := by rw [hlen]; exact hb
  obtain ⟨d, hd⟩ := actionTermDerivative_defined q action[b] controlWires[a].action[b] action
    controlWires[a] controlWires hfit hlen
  simp [newControlWiresActionStep, hwire, List.getElem?_eq_getElem hb,
    List.getElem?_eq_getElem hb', hd]

theorem newControlWiresWireStep_defined (q : WireFitQLearn α β ν) (action : List α) (a : Nat)
    (controlWires : List (Wire α)) (hfit : Fits action controlWires)
    (ha : a < controlWires.length) :
    ∃ result, newControlWiresWireStep q action controlWires a = some result := by
  have hwire : controlWires[a]? = some controlWires[a] := List.getElem?_eq_getElem ha
  have hlen : controlWires[a].action.length = action.length :=
    hfit _ (List.getElem_mem ha)
  obtain ⟨d, hd⟩ := rewardDerivative_defined q action controlWires[a] controlWires hfit hlen
  have h0 : shape (controlWires.set a
      { controlWires[a] with reward := controlWires[a].reward - q.gradientDescentLearningRate * d })
      = shape controlWires := shape_set controlWires a _ _ hwire rfl
  obtain ⟨result, hres, _⟩ := foldlM_defined (fun s => shape s = shape controlWires)
    (newControlWiresActionStep q action a) (List.range controlWires[a].action.length)
    (fun s i hi hs => by
      have hi' : i < action.length := by
        rw [← hlen]
        exact List.mem_range.mp hi
      have ha' : a < s.length := by
        rw [length_eq_of_shape_eq hs]
        exact ha
      obtain ⟨s', hs'⟩ := newControlWiresActionStep_defined q action a i s
        (fits_of_shape_eq hs hfit) ha' hi'
      exact ⟨s', hs', (newControlWiresActionStep_shape q action a i s s' hs').trans hs⟩)
    _ h0
  refine ⟨result, ?_⟩
  simp only [newControlWiresWireStep, hwire, hd, Option.bind_eq_bind, Option.some_bind]
  exact hres

theorem newControlWiresSweep_defined (q : WireFitQLearn α β ν) (action : List α)
    (controlWires : List (Wire α)) (hfit : Fits action controlWires) :
    ∃ result, newControlWiresSweep q action controlWires = some result
      ∧ shape result = shape controlWires :=
  foldlM_defined (fun s => shape s = shape controlWires) (newControlWiresWireStep q action)
    (List.range controlWires.length)
    (fun s i hi hs => by
      have hi' : i < s.length := by
        rw [length_eq_of_shape_eq hs]
        exact List.mem_range.mp hi
      obtain ⟨s', hs'⟩ := newControlWiresWireStep_defined q action i s
        (fits_of_shape_eq hs hfit) hi'
      exact ⟨s', hs', (newControlWiresWireStep_shape q action i s s' hs').trans hs⟩)
    _ rfl

/-- The bound on the number of passes that `newControlWires` hands to
`newControlWiresLoop` is never reached: with a bound of at least one and at
least the number of passes the counter allows, the loop returns for every wire
set whose actions have the length of the query action. -/
theorem newControlWiresLoop_fuel (q : WireFitQLearn α β ν) (newReward : α) (action : List α)
    (fuel : Nat) (controlWires : List (Wire α)) (iterations : Int)
    (hfit : Fits action controlWires) (h1 : 1 ≤ fuel)
    (h2 : (q.gradientDescentMaxIterations - iterations).toNat ≤ fuel) :
    ∃ result, newControlWiresLoop q newReward action fuel controlWires iterations
      = some result := by
  induction fuel generalizing controlWires iterations with
  | zero => omega
  | succ fuel ih =>
    obtain ⟨cw, hcw, hshape⟩ := newControlWiresSweep_defined q action controlWires hfit
    have hfit' : Fits action cw := fits_of_shape_eq hshape hfit
    obtain ⟨v, hv⟩ := getRewardUsingInterpolator_defined q cw action hfit'
    simp only [newControlWiresLoop, hcw, hv, Option.bind_eq_bind, Option.some_bind]
    split_ifs with hc
    · apply ih cw (iterations + 1) hfit'
      · omega
      · omega
    · exact ⟨_, rfl⟩

theorem newControlWiresLoop_spec (q : WireFitQLearn α β ν) (newReward : α) (action : List α)
    (fuel : Nat) (controlWires : List (Wire α)) (iterations : Int)
    (result : List (Wire α)) (k : Int)
    (h : newControlWiresLoop q newReward action fuel controlWires iterations
      = some (result, k)) :
    iterations + 1 ≤ k
      ∧ (k = iterations + 1 ∨ k ≤ q.gradientDescentMaxIterations)
      ∧ sweepIterate q action (k - iterations).toNat controlWires = some result
      ∧ ∃ v, getRewardUsingInterpolator q result action = some v
          ∧ ((newReward - v) ^ 2 ≤ q.gradientDescentErrorTarget
              ∨ q.gradientDescentMaxIterations ≤ k) := by
  induction fuel generalizing controlWires iterations with
  | zero => simp [newControlWiresLoop] at h
  | succ fuel ih =>
    simp only [newControlWiresLoop, Option.bind_eq_bind, Option.bind_eq_some] at h
    obtain ⟨cw, hcw, v, hv, h⟩ := h
    split_ifs at h with hc
    · obtain ⟨g1, g2, g3, g4⟩ := ih cw (iterations + 1) h
      refine ⟨by omega, ?_, ?_, g4⟩
      · rcases g2 with g2 | g2
        · right
          omega
        · exact Or.inr g2
      · have hk : (k - iterations).toNat = (k - (iterations + 1)).toNat + 1 := by omega
        rw [hk, sweepIterate, hcw]
        exact g3
    · simp only [Option.some.injEq, Prod.mk.injEq] at h
      obtain ⟨rfl, rfl⟩ := h
      refine ⟨le_refl _, Or.inl rfl, ?_, v, hv, ?_⟩
      · have hk : (iterations + 1 - iterations).toNat = 1 := by omega
        rw [hk, sweepIterate, hcw]
        rfl
      · rw [not_and_or, not_lt, not_lt] at hc
        exact hc

theorem getElem?_append_cons_length {γ : Type} (done : List γ) (w : γ) (pending : List γ) :
    (done ++ w :: pending)[done.length]? = some w := by
  induction done with
  | nil => simp
  | cons x done ih => simpa using ih

theorem set_append_cons_length {γ : Type} (done : List γ) (w w' : γ) (pending : List γ) :
    (done ++ w :: pending).set done.length w' = done ++ w' :: pending := by
  induction done with
  | nil => rfl
  | cons x done ih => simp [ih]

theorem actionSteps_eq_sequentialActions (q : WireFitQLearn α β ν) (action : List α)
    (done : List (Wire α)) (reward : α) (pending : List (Wire α))
    (pendingA doneA : List α) :
    (List.range' doneA.length pendingA.length).foldlM
        (newControlWiresActionStep q action done.length)
        (done ++ { action := doneA ++ pendingA, reward := reward } :: pending)
      = (sequentialActions q action done reward pending doneA pendingA).map
          (fun newAction => done ++ { action := newAction, reward := reward } :: pending) := by
  induction pendingA generalizing doneA with
  | nil => simp [sequentialActions]
  | cons y rest ih =>
    rw [List.length_cons, List.range'_succ, List.foldlM_cons]
    simp only [newControlWiresActionStep, sequentialActions, getElem?_append_cons_length,
      Option.bind_eq_bind, Option.some_bind, set_append_cons_length]
    cases hx : action[doneA.length]? with
    | none => simp
    | some x =>
      simp only [Option.some_bind]
      cases hd : actionTermDerivative q x y action
          { action := doneA ++ y :: rest, reward := reward }
          (done ++ { action := doneA ++ y :: rest, reward := reward } :: pending) with
      | none => simp
      | some d =>
        simp only [Option.some_bind]
        have := ih (doneA ++ [y - q.gradientDescentLearningRate * d])
        simp only [List.length_append, List.length_singleton, List.append_assoc,
          List.singleton_append] at this
        rw [← this]

theorem wireSteps_eq_sequentialWires (q : WireFitQLearn α β ν) (action : List α)
    (pending done : List (Wire α)) :
    (List.range' done.length pending.length).foldlM (newControlWiresWireStep q action)
        (done ++ pending)
      = sequentialWires q action done pending := by
  induction pending generalizing done with
  | nil => simp [sequentialWires]
  | cons w rest ih =>
    rw [List.length_cons, List.range'_succ, List.foldlM_cons]
    simp only [newControlWiresWireStep, sequentialWires, getElem?_append_cons_length,
      Option.bind_eq_bind, Option.some_bind, set_append_cons_length]
    cases hd : rewardDerivative q action w (done ++ w :: rest) with
    | none => simp
    | some d =>
      simp only [Option.some_bind]
      have hinner := actionSteps_eq_sequentialActions q action done
        (w.reward - q.gradientDescentLearningRate * d) rest w.action []
      simp only [List.length_nil, List.nil_append] at hinner
      rw [List.range_eq_range', hinner]
      cases hact : sequentialActions q action done
          (w.reward - q.gradientDescentLearningRate * d) rest [] w.action with
      | none => simp
      | some newAction =>
        simp only [Option.map_some', Option.some_bind]
        have := ih (done ++ [Wire.mk newAction
          (w.reward - q.gradientDescentLearningRate * d)])
        simp only [List.length_append, List.length_singleton, List.append_assoc,
          List.singleton_append] at this
        exact this

/-- C14, counterexample: for the wires `([0], 0)` and `([0], 1)` and the action
`[0]` (constructor values of the parameters), one pass of the loop body gives
the second wire the reward `630773/7112889`, because its derivative is
evaluated after the first wire's reward has been replaced, while the
simultaneous update gives it `43/484`. -/
theorem newControlWiresSweep_not_simultaneous :
    newControlWiresSweep (sampleAgent 1 2 1 [] []) [0] [⟨[0], 0⟩, ⟨[0], 1⟩]
        = some [⟨[0], -1 / 484⟩, ⟨[0], 630773 / 7112889⟩]
      ∧ simultaneousUpdate (sampleAgent 1 2 1 [] []) [0] [⟨[0], 0⟩, ⟨[0], 1⟩]
        = some [⟨[0], -1 / 484⟩, ⟨[0], 43 / 484⟩]
      ∧ newControlWiresSweep (sampleAgent 1 2 1 [] []) [0] [⟨[0], 0⟩, ⟨[0], 1⟩]
        ≠ simultaneousUpdate (sampleAgent 1 2 1 [] []) [0] [⟨[0], 0⟩, ⟨[0], 1⟩] := by
  decide!

/-- C14, amended: one pass of the loop body of `newControlWires` is the
sequential in-place update `sequentialWires`: the wires are replaced in index
order, the reward of a wire before its action components and these in index
order, and every derivative is evaluated on the wire set as it stands at that
moment, with the replacements made earlier in the same pass. -/
theorem newControlWiresSweep_eq_sequential (q : WireFitQLearn α β ν) (action : List α)
    (controlWires : List (Wire α)) :
    newControlWiresSweep q action controlWires = sequentialWires q action [] controlWires := by
  have := wireSteps_eq_sequentialWires q action controlWires []
  simp only [List.length_nil, List.nil_append] at this
  rw [newControlWiresSweep, List.range_eq_range', this]

theorem sweepIterate_shape (q : WireFitQLearn α β ν) (action : List α) (n : Nat)
    (controlWires result : List (Wire α))
    (h : sweepIterate q action n controlWires = some result) :
    shape result = shape controlWires := by
  induction n generalizing controlWires with
  | zero =>
    simp only [sweepIterate, Option.some.injEq] at h
    rw [h]
  | succ n ih =>
    simp only [sweepIterate, Option.bind_eq_some] at h
    obtain ⟨cw, hcw, h⟩ := h
    exact (ih cw h).trans (newControlWiresSweep_shape q action controlWires cw hcw)

theorem newControlWiresCount_spec (q : WireFitQLearn α β ν) (newReward : α) (action : List α)
    (controlWires result : List (Wire α)) (k : Int)
    (h : newControlWiresCount q newReward action controlWires = some (result, k)) :
    1 ≤ k ∧ (k = 1 ∨ k ≤ q.gradientDescentMaxIterations)
      ∧ sweepIterate q action k.toNat controlWires = some result
      ∧ ∃ v, getRewardUsingInterpolator q result action = some v
          ∧ ((newReward - v) ^ 2 ≤ q.gradientDescentErrorTarget
              ∨ q.gradientDescentMaxIterations ≤ k) := by
  have := newControlWiresLoop_spec q newReward action _ controlWires 0 result k h
  simpa using this

theorem newControlWiresCount_defined (q : WireFitQLearn α β ν) (newReward : α)
    (action : List α) (controlWires : List (Wire α)) (hfit : Fits action controlWires) :
    ∃ result, newControlWiresCount q newReward action controlWires = some result := by
  apply newControlWiresLoop_fuel q newReward action _ controlWires 0 hfit
  · exact le_max_left _ _
  · rw [sub_zero]
    exact le_max_right _ _

theorem newControlWires_shape (q : WireFitQLearn α β ν) (newReward : α) (action : List α)
    (controlWires result : List (Wire α))
    (h : newControlWires q newReward action controlWires = some result) :
    shape result = shape controlWires := by
  simp only [newControlWires, Option.map_eq_some', Prod.exists, exists_and_right,
    exists_eq_right] at h
  obtain ⟨k, hk⟩ := h
  obtain ⟨_, _, hiter, _⟩ := newControlWiresCount_spec q newReward action _ _ k hk
  exact sweepIterate_shape q action _ _ _ hiter

theorem newControlWires_defined (q : WireFitQLearn α β ν) (newReward : α) (action : List α)
    (controlWires : List (Wire α)) (hfit : Fits action controlWires) :
    ∃ result, newControlWires q newReward action controlWires = some result := by
  obtain ⟨⟨result, k⟩, h⟩ := newControlWiresCount_defined q newReward action controlWires hfit
  exact ⟨result, by simp [newControlWires, h]⟩

/-- C18: when `newControlWires` returns, the returned set has as many wires
as the input and every wire's action has the length it had in the input; and
when the input has `numberOfWires` wires with actions of length
`actionDimensions`, `getRawOutput` of the returned set is defined and has
length `numberOfWires * (actionDimensions + 1)`. -/
theorem newControlWires_preserves_shape (q : WireFitQLearn α β ν) (newReward : α)
    (action : List α) (controlWires result : List (Wire α))
    (h : newControlWires q newReward action controlWires = some result) :
    result.length = controlWires.length
      ∧ (∀ i : Nat, (result[i]?).map (fun w => w.action.length)
            = (controlWires[i]?).map (fun w => w.action.length))
      ∧ (controlWires.length = q.numberOfWires →
          (∀ w ∈ controlWires, w.action.length = q.actionDimensions) →
          ∃ raw, getRawOutput q.actionDimensions result = some raw
            ∧ raw.length = q.numberOfWires * (q.actionDimensions + 1)) := by
  have hshape := newControlWires_shape q newReward action _ _ h
  have hlen := length_eq_of_shape_eq hshape
  refine ⟨hlen, ?_, ?_⟩
  · intro i
    have := congrArg (fun l => l[i]?) hshape
    simpa [shape, List.getElem?_map] using this
  · intro hn hd
    have hd' : ∀ w ∈ result, w.action.length ≤ q.actionDimensions := by
      intro w hw
      have hmem : w.action.length ∈ shape result := List.mem_map_of_mem _ hw
      rw [hshape] at hmem
      obtain ⟨w0, hw0, h0⟩ := List.mem_map.mp hmem
      rw [← h0, hd w0 hw0]
    obtain ⟨raw, hraw, hrl⟩ := getRawOutput_defined q.actionDimensions result hd'
    exact ⟨raw, hraw, by rw [hrl, hlen, hn]⟩

theorem newControlWires_preserves_shape_witness :
    ([⟨[1 / 2], 1 / 2⟩] : List (Wire ℚ)).length = [(⟨[1 / 2], 1⟩ : Wire ℚ)].length
      ∧ ∃ raw, getRawOutput 1 [(⟨[1 / 2], 1 / 2⟩ : Wire ℚ)] = some raw
          ∧ raw.length = 1 * (1 + 1) :=
  have h := newControlWires_preserves_shape (sampleAgent 1 1 1 [] []) 3 [0]
    [⟨[1 / 2], 1⟩] [⟨[1 / 2], 1 / 2⟩] (by decide!)
  ⟨h.1, h.2.2 rfl (by decide)⟩

/-- C19: the passes of `newControlWires` do not use the target value.  For two
target values `t1` and `t2` and the same action and wire set, when the calls
return `W1` after `k1` passes and `W2` after `k2` passes, both `k1` and `k2`
are at least one and `W1`, `W2` are the `k1`-th and `k2`-th members of the
sequence `sweepIterate`, which has no target argument; in particular the two
results are equal when the numbers of passes are equal. -/
theorem newControlWires_target_independent (q : WireFitQLearn α β ν) (t1 t2 : α)
    (action : List α) (controlWires W1 W2 : List (Wire α)) (k1 k2 : Int)
    (h1 : newControlWiresCount q t1 action controlWires = some (W1, k1))
    (h2 : newControlWiresCount q t2 action controlWires = some (W2, k2)) :
    1 ≤ k1 ∧ 1 ≤ k2
      ∧ sweepIterate q action k1.toNat controlWires = some W1
      ∧ sweepIterate q action k2.toNat controlWires = some W2
      ∧ (k1 = k2 → W1 = W2) := by
  obtain ⟨a1, _, a3, _⟩ := newControlWiresCount_spec q t1 action _ _ k1 h1
  obtain ⟨b1, _, b3, _⟩ := newControlWiresCount_spec q t2 action _ _ k2 h2
  refine ⟨a1, b1, a3, b3, ?_⟩
  intro hk
  rw [hk, b3] at a3
  exact (Option.some.inj a3).symm

theorem newControlWires_target_independent_witness :
    (1 : Int) ≤ 1 ∧ (1 : Int) ≤ 1
      ∧ sweepIterate (sampleAgent 1 1 1 [] []) [0] (1 : Int).toNat [⟨[1 / 2], 1⟩]
          = some [⟨[1 / 2], 1 / 2⟩]
      ∧ sweepIterate (sampleAgent 1 1 1 [] []) [0] (1 : Int).toNat [⟨[1 / 2], 1⟩]
          = some [⟨[1 / 2], 1 / 2⟩]
      ∧ ((1 : Int) = 1 → ([⟨[1 / 2], 1 / 2⟩] : List (Wire ℚ)) = [⟨[1 / 2], 1 / 2⟩]) :=
  newControlWires_target_independent (sampleAgent 1 1 1 [] []) 3 (1 / 2) [0]
    [⟨[1 / 2], 1⟩] [⟨[1 / 2], 1 / 2⟩] [⟨[1 / 2], 1 / 2⟩] 1 1 (by decide!) (by decide!)

end AdjusterFacts

/-! ## The maximum scans of the greedy policy -/

section GreedyFacts

variable {α β ν : Type} [LinearOrderedField α]

theorem bestActionLoop_append (l : List (Wire α)) (x : Wire α) :
    bestActionLoop (l ++ [x])
      = if x.reward > (bestActionLoop l).2 then (x.action, x.reward) else bestActionLoop l := by
  simp [bestActionLoop, List.foldl_append]

theorem bestActionLoop_invariant (l : List (Wire α)) :
    ((bestActionLoop l).1 = [] ∧ (bestActionLoop l).2 = -99999
        ∧ ∀ w ∈ l, w.reward ≤ -99999)
      ∨ ∃ (i : Nat) (w : Wire α), l[i]? = some w ∧ bestActionLoop l = (w.action, w.reward)
          ∧ -99999 < w.reward ∧ (∀ v ∈ l, v.reward ≤ w.reward)
          ∧ ∀ (j : Nat) (v : Wire α), j < i → l[j]? = some v → v.reward < w.reward := by
  induction l using List.reverseRecOn with
  | nil =>
    left
    simp [bestActionLoop]
  | append_singleton l x ih =>
    rw [bestActionLoop_append]
    by_cases hx : x.reward > (bestActionLoop l).2
    · rw [if_pos hx]
      right
      refine ⟨l.length, x, by simp, rfl, ?_, ?_, ?_⟩
      · rcases ih with ⟨_, h2, _⟩ | ⟨i, w, _, h2, h3, _, _⟩
        · rw [h2] at hx
          exact hx
        · rw [h2] at hx
          exact lt_trans h3 hx
      · intro v hv
        rcases List.mem_append.mp hv with hv | hv
        · rcases ih with ⟨_, h2, h3⟩ | ⟨i, w, _, h2, _, h4, _⟩
          · rw [h2] at hx
            exact le_trans (h3 v hv) (le_of_lt hx)
          · rw [h2] at hx
            exact le_trans (h4 v hv) (le_of_lt hx)
        · rw [List.mem_singleton.mp hv]
      · intro j v hj hv
        rw [List.getElem?_append_left hj] at hv
        have hmem := mem_of_getElem?_eq_some hv
        rcases ih with ⟨_, h2, h3⟩ | ⟨i, w, _, h2, _, h4, _⟩
        · rw [h2] at hx
          exact lt_of_le_of_lt (h3 v hmem) hx
        · rw [h2] at hx
          exact lt_of_le_of_lt (h4 v hmem) hx
    · rw [if_neg hx]
      rcases ih with ⟨h1, h2, h3⟩ | ⟨i, w, h1, h2, h3, h4, h5⟩
      · left
        refine ⟨h1, h2, ?_⟩
        intro v hv
        rcases List.mem_append.mp hv with hv | hv
        · exact h3 v hv
        · rw [List.mem_singleton.mp hv, ← h2]
          exact not_lt.mp hx
      · right
        have hi : i < l.length := by
          rcases Nat.lt_or_ge i l.length with h | h
          · exact h
          · rw [List.getElem?_eq_none h] at h1
            cases h1
        refine ⟨i, w, ?_, h2, h3, ?_, ?_⟩
        · rw [List.getElem?_append_left hi]
          exact h1
        · intro v hv
          rcases List.mem_append.mp hv with hv | hv
          · exact h4 v hv
          · rw [List.mem_singleton.mp hv]
            rw [h2] at hx
            exact not_lt.mp hx
        · intro j v hj hv
          rw [List.getElem?_append_left (lt_trans hj hi)] at hv
          exact h5 j v hj hv

/-- When some decoded wire has a reward above the initial value `-99999`,
`bestAction` returns the action of the first wire whose reward is the maximum
over the decoded wires. -/
theorem bestAction_first_maximum (c : Collaborators α β ν) (q : WireFitQLearn α β ν)
    (state : List α) (wires : List (Wire α)) (hwires : getWires c q state = some wires)
    (habove : ∃ w ∈ wires, -99999 < w.reward) :
    ∃ (i : Nat) (w : Wire α), wires[i]? = some w ∧ bestAction c q state = some w.action
      ∧ (∀ v ∈ wires, v.reward ≤ w.reward)
      ∧ ∀ (j : Nat) (v : Wire α), j < i → wires[j]? = some v → v.reward < w.reward := by
  rcases bestActionLoop_invariant wires with ⟨_, _, h3⟩ | ⟨i, w, h1, h2, _, h4, h5⟩
  · obtain ⟨w, hw, hlt⟩ := habove
    exact absurd (h3 w hw) (not_le.mpr hlt)
  · exact ⟨i, w, h1, by simp [bestAction, hwires, h2], h4, h5⟩

theorem highestRewardOfWires_eq_bestActionLoop (l : List (Wire α)) :
    highestRewardOfWires l = (bestActionLoop l).2 := by
  induction l using List.reverseRecOn with
  | nil => simp [highestRewardOfWires, bestActionLoop]
  | append_singleton l x ih =>
    rw [bestActionLoop_append]
    unfold highestRewardOfWires at ih ⊢
    rw [List.foldl_append, List.foldl_cons, List.foldl_nil, ih]
    split_ifs <;> rfl

/-- When some decoded wire has a reward above the initial value `-99999`,
`highestReward` returns the maximum of the decoded rewards, which is then also
the maximum the scan of `weightedSum` and `normalize` computes. -/
theorem highestReward_eq_maximum (c : Collaborators α β ν) (q : WireFitQLearn α β ν)
    (state : List α) (wires : List (Wire α)) (hwires : getWires c q state = some wires)
    (habove : ∃ w ∈ wires, -99999 < w.reward) :
    ∃ w ∈ wires, highestReward c q state = some w.reward
      ∧ (∀ v ∈ wires, v.reward ≤ w.reward)
      ∧ maxRewardFromWires wires = w.reward := by
  rcases bestActionLoop_invariant wires with ⟨_, _, h3⟩ | ⟨i, w, h1, h2, h6, h4, _⟩
  · obtain ⟨w, hw, hlt⟩ := habove
    exact absurd (h3 w hw) (not_le.mpr hlt)
  · have hmem := mem_of_getElem?_eq_some h1
    refine ⟨w, hmem, ?_, h4, ?_⟩
    · simp [highestReward, hwires, highestRewardOfWires_eq_bestActionLoop, h2]
    · apply le_antisymm
      · apply maxRewardFromWires_le_aux wires _ _ _ h4
        have : (-9999999 : α) ≤ -99999 := by norm_num
        exact le_trans this (le_of_lt h6)
      · exact reward_le_maxRewardFromWires wires w hmem

end GreedyFacts

/-! ## The agent: selection and reinforcement -/

section AgentFacts

variable {α β ν : Type} [LinearOrderedField α]

theorem getWires_shape (c : Collaborators α β ν) (q : WireFitQLearn α β ν) (state : List α)
    (wires : List (Wire α)) (h : getWires c q state = some wires) :
    wires.length = q.numberOfWires ∧ ∀ w ∈ wires, w.action.length = q.actionDimensions :=
  getWiresOfRawOutput_shape _ _ _ _ h

/-- C9: `chooseBestAction(s)` returns exactly what `bestAction(s)` returns, and
whenever `chooseBestAction(s)` or `chooseBoltzmanAction(s, T)` returns an
action, the agent after the call has `lastState = s` and `lastAction` equal to
the returned action. -/
theorem choose_records_state_and_action (c : Collaborators α β ν) (q : WireFitQLearn α β ν)
    (s : List α) :
    (chooseBestAction c q s).map Prod.snd = bestAction c q s
      ∧ (∀ q' action, chooseBestAction c q s = some (q', action) →
          q'.lastState = s ∧ q'.lastAction = action)
      ∧ (∀ randValue randMax explorationConstant q' action,
          chooseBoltzmanAction c q randValue randMax s explorationConstant = some (q', action) →
          q'.lastState = s ∧ q'.lastAction = action) := by
  refine ⟨?_, ?_, ?_⟩
  · cases h : bestAction c q s <;> simp [chooseBestAction, h]
  · intro q' action h
    simp only [chooseBestAction, Option.bind_eq_bind, Option.bind_eq_some, Option.some.injEq,
      Prod.mk.injEq] at h
    obtain ⟨a, _, rfl, rfl⟩ := h
    exact ⟨rfl, rfl⟩
  · intro randValue randMax explorationConstant q' action h
    simp only [chooseBoltzmanAction, Option.bind_eq_bind, Option.bind_eq_some,
      Option.some.injEq, Prod.mk.injEq] at h
    obtain ⟨wires, _, a, _, wire, _, rfl, rfl⟩ := h
    exact ⟨rfl, rfl⟩

theorem choose_records_state_and_action_witness :
    ({ sampleAgent 1 1 1 [] [] with lastAction := [7], lastState := [7, 3] } :
        WireFitQLearn ℚ TrainingLog Unit).lastState = [7, 3]
      ∧ ({ sampleAgent 1 1 1 [] [] with lastAction := [7], lastState := [7, 3] } :
        WireFitQLearn ℚ TrainingLog Unit).lastAction = [7] :=
  (choose_records_state_and_action (recordingCollaborators expStandIn)
    (sampleAgent 1 1 1 [] []) [7, 3]).2.1 _ [7] (by decide!)

/-- C10: when `applyReinforcementToLastAction` returns, the agent after the
call has the `lastAction`, the `lastState` and every configuration field of
the agent before the call; only the trainer and the network may differ. -/
theorem applyReinforcement_keeps_agent_state (c : Collaborators α β ν)
    (q q' : WireFitQLearn α β ν) (reward : α) (newState : List α) (elapsedTimeMillis : α)
    (h : applyReinforcementToLastAction c q reward newState elapsedTimeMillis = some q') :
    q'.lastAction = q.lastAction ∧ q'.lastState = q.lastState
      ∧ q'.learningRate = q.learningRate ∧ q'.devaluationFactor = q.devaluationFactor
      ∧ q'.actionDimensions = q.actionDimensions ∧ q'.numberOfWires = q.numberOfWires
      ∧ q'.scalingFactorToMillis = q.scalingFactorToMillis
      ∧ q'.smoothingFactor = q.smoothingFactor ∧ q'.e = q.e
      ∧ q'.gradientDescentErrorTarget = q.gradientDescentErrorTarget
      ∧ q'.gradientDescentLearningRate = q.gradientDescentLearningRate
      ∧ q'.gradientDescentMaxIterations = q.gradientDescentMaxIterations := by
  simp only [applyReinforcementToLastAction, Option.bind_eq_bind, Option.bind_eq_some,
    Option.some.injEq] at h
  obtain ⟨_, _, _, _, _, _, _, _, _, _, _, _, rfl⟩ := h
  simp

theorem applyReinforcement_eq (c : Collaborators α β ν) (q : WireFitQLearn α β ν) (reward : α)
    (newState : List α) (elapsedTimeMillis : α) (controlWires newWires : List (Wire α))
    (hlast : getWires c q q.lastState = some controlWires)
    (hnew : getWires c q newState = some newWires)
    (hact : q.lastAction.length = q.actionDimensions) :
    ∃ oldValue adjusted target,
      getRewardUsingInterpolator q controlWires q.lastAction = some oldValue
      ∧ newControlWires q
          ((1 - q.learningRate) * oldValue
            + q.learningRate
              * ((1 / (q.scalingFactorToMillis * elapsedTimeMillis))
                  * (reward + c.pow q.devaluationFactor (q.scalingFactorToMillis * elapsedTimeMillis)
                      * highestRewardOfWires newWires)
                + (1 - 1 / (q.scalingFactorToMillis * elapsedTimeMillis))
                  * highestRewardOfWires controlWires))
          q.lastAction controlWires = some adjusted
      ∧ getRawOutput q.actionDimensions adjusted = some target
      ∧ target.length = q.numberOfWires * (q.actionDimensions + 1)
      ∧ applyReinforcementToLastAction c q reward newState elapsedTimeMillis
          = some { q with
              backprop := (c.trainOnData q.backprop q.network [q.lastState] [target]).1,
              network := (c.trainOnData q.backprop q.network [q.lastState] [target]).2 } := by
  obtain ⟨hn, hd⟩ := getWires_shape c q _ _ hlast
  have hfit : Fits q.lastAction controlWires := fun w hw => (hd w hw).trans hact.symm
  obtain ⟨oldValue, hold⟩ := getRewardUsingInterpolator_defined q controlWires q.lastAction hfit
  obtain ⟨adjusted, hadj⟩ := newControlWires_defined q
    ((1 - q.learningRate) * oldValue
      + q.learningRate
        * ((1 / (q.scalingFactorToMillis * elapsedTimeMillis))
            * (reward + c.pow q.devaluationFactor (q.scalingFactorToMillis * elapsedTimeMillis)
                * highestRewardOfWires newWires)
          + (1 - 1 / (q.scalingFactorToMillis * elapsedTimeMillis))
            * highestRewardOfWires controlWires))
    q.lastAction controlWires hfit
  have hshape := newControlWires_shape q _ _ _ _ hadj
  have hd' : ∀ w ∈ adjusted, w.action.length ≤ q.actionDimensions := by
    intro w hw
    have hmem : w.action.length ∈ shape adjusted := List.mem_map_of_mem _ hw
    rw [hshape] at hmem
    obtain ⟨w0, hw0, h0⟩ := List.mem_map.mp hmem
    rw [← h0, hd w0 hw0]
  obtain ⟨target, htarget, hlen⟩ := getRawOutput_defined q.actionDimensions adjusted hd'
  refine ⟨oldValue, adjusted, target, hold, hadj, htarget, ?_, ?_⟩
  · rw [hlen, length_eq_of_shape_eq hshape, hn]
  · simp only [applyReinforcementToLastAction, hlast, hold, highestReward, hnew,
      Option.map_some', Option.bind_eq_bind, Option.some_bind, hadj, htarget]

/-- C6, counterexample: with `elapsedTimeMillis = 0` (agent with one wire of
one dimension, `lastAction = [0]`, `lastState = [0, 1]`, reward `1`, new state
`[0, 2]`) the call returns normally and has submitted the training example
with input `[0, 1]` and target `[0, 1/2]` to the trainer. -/
theorem applyReinforcement_zero_elapsed_trains :
    (applyReinforcementToLastAction (recordingCollaborators expStandIn)
        (sampleAgent 1 1 1 [0] [0, 1]) 1 [0, 2] 0).map (fun q => q.backprop)
      = some [([0, 1], [0, 1 / 2])] := by
  decide!

/-- C6, amended: `applyReinforcementToLastAction` has no precondition on
`elapsedTimeMillis`.  For every value of it, also zero or negative, when the
wires of `lastState` and of `newState` decode and `lastAction` has
`actionDimensions` components, the call returns normally and the trainer has
been given one example, with input `lastState` and a target of length
`numberOfWires * (actionDimensions + 1)`. -/
theorem applyReinforcement_no_precondition (c : Collaborators α β ν)
    (q : WireFitQLearn α β ν) (reward : α) (newState : List α) (elapsedTimeMillis : α)
    (controlWires newWires : List (Wire α))
    (hlast : getWires c q q.lastState = some controlWires)
    (hnew : getWires c q newState = some newWires)
    (hact : q.lastAction.length = q.actionDimensions) :
    ∃ q' target,
      applyReinforcementToLastAction c q reward newState elapsedTimeMillis = some q'
      ∧ (q'.backprop, q'.network) = c.trainOnData q.backprop q.network [q.lastState] [target]
      ∧ target.length = q.numberOfWires * (q.actionDimensions + 1) := by
  obtain ⟨_, _, target, _, _, _, hlen, h⟩ :=
    applyReinforcement_eq c q reward newState elapsedTimeMillis controlWires newWires
      hlast hnew hact
  exact ⟨_, target, h, rfl, hlen⟩

theorem applyReinforcement_no_precondition_witness :
    ∃ q' target,
      applyReinforcementToLastAction (recordingCollaborators expStandIn)
          (sampleAgent 1 1 1 [0] [0, 1]) 1 [0, 2] (-3) = some q'
      ∧ (q'.backprop, q'.network)
          = (recordingCollaborators expStandIn).trainOnData [] () [[0, 1]] [target]
      ∧ target.length = 1 * (1 + 1) :=
  applyReinforcement_no_precondition (recordingCollaborators expStandIn)
    (sampleAgent 1 1 1 [0] [0, 1]) 1 [0, 2] (-3) [⟨[0], 1⟩] [⟨[0], 2⟩]
    (by decide!) (by decide!) (by decide)

/-- C8: for `elapsedTimeMillis > 0`, when the wires of `lastState` and of
`newState` decode and `lastAction` has `actionDimensions` components, the call
makes one call of the trainer, with the single input `lastState` and the single
target `getRawOutput(newControlWires(target, lastAction, wires(lastState)))`,
where `scalingFactor = scalingFactorToMillis * elapsedTimeMillis`,
`feedback = (1/scalingFactor) * (reward + devaluationFactor^scalingFactor *
highestReward(newState)) + (1 - 1/scalingFactor) * highestReward(lastState)` and
`target = (1 - learningRate) * interpolatedValue + learningRate * feedback`. -/
theorem applyReinforcement_trains_once (c : Collaborators α β ν) (q : WireFitQLearn α β ν)
    (reward : α) (newState : List α) (elapsedTimeMillis : α) (_helapsed : 0 < elapsedTimeMillis)
    (controlWires newWires : List (Wire α))
    (hlast : getWires c q q.lastState = some controlWires)
    (hnew : getWires c q newState = some newWires)
    (hact : q.lastAction.length = q.actionDimensions) :
    highestReward c q newState = some (highestRewardOfWires newWires)
    ∧ highestReward c q q.lastState = some (highestRewardOfWires controlWires)
    ∧ ∃ oldValue adjusted target,
      getRewardUsingInterpolator q controlWires q.lastAction = some oldValue
      ∧ newControlWires q
          ((1 - q.learningRate) * oldValue
            + q.learningRate
              * ((1 / (q.scalingFactorToMillis * elapsedTimeMillis))
                  * (reward + c.pow q.devaluationFactor (q.scalingFactorToMillis * elapsedTimeMillis)
                      * highestRewardOfWires newWires)
                + (1 - 1 / (q.scalingFactorToMillis * elapsedTimeMillis))
                  * highestRewardOfWires controlWires))
          q.lastAction controlWires = some adjusted
      ∧ getRawOutput q.actionDimensions adjusted = some target
      ∧ applyReinforcementToLastAction c q reward newState elapsedTimeMillis
          = some { q with
              backprop := (c.trainOnData q.backprop q.network [q.lastState] [target]).1,
              network := (c.trainOnData q.backprop q.network [q.lastState] [target]).2 } := by
  refine ⟨by simp [highestReward, hnew], by simp [highestReward, hlast], ?_⟩
  obtain ⟨oldValue, adjusted, target, h1, h2, h3, _, h4⟩ :=
    applyReinforcement_eq c q reward newState elapsedTimeMillis controlWires newWires
      hlast hnew hact
  exact ⟨oldValue, adjusted, target, h1, h2, h3, h4⟩

theorem applyReinforcement_trains_once_witness :
    (applyReinforcementToLastAction (recordingCollaborators expStandIn)
        (sampleAgent 1 1 1 [0] [0, 1]) 1 [0, 2] 2).isSome = true := by
  obtain ⟨_, _, _, _, _, _, _, _, h⟩ :=
    applyReinforcement_trains_once (recordingCollaborators expStandIn)
      (sampleAgent 1 1 1 [0] [0, 1]) 1 [0, 2] 2 (by decide!) [⟨[0], 1⟩] [⟨[0], 2⟩]
      (by decide!) (by decide!) (by decide)
  rw [h]
  rfl

theorem applyReinforcement_keeps_agent_state_witness :
    ([0] : List ℚ) = (sampleAgent 1 1 1 [0] [0, 1]).lastAction
      ∧ ([0, 1] : List ℚ) = (sampleAgent 1 1 1 [0] [0, 1]).lastState :=
  have h := applyReinforcement_keeps_agent_state (recordingCollaborators expStandIn)
    (sampleAgent 1 1 1 [0] [0, 1])
    { sampleAgent 1 1 1 [0] [0, 1] with backprop := [([0, 1], [0, 1 / 2])] }
    1 [0, 2] 2 (by decide!)
  ⟨h.1, h.2.1⟩

/-- C16, at the failing input `numberOfWires = 1`, `actionDimensions = 1`,
network output `[7, -100000]`: the only reward is `-100000`, `highestReward`
returns its initial value `-99999`, and the maximum that `weightedSum` and
`normalize` compute for the same wire set is `-100000`. -/
theorem highestReward_below_sentinel :
    getWires (recordingCollaborators expStandIn) (sampleAgent 1 1 1 [] []) [7, -100000]
        = some [⟨[7], -100000⟩]
      ∧ highestReward (recordingCollaborators expStandIn) (sampleAgent 1 1 1 [] [])
          [7, -100000] = some (-99999)
      ∧ maxRewardFromWires [(⟨[7], -100000⟩ : Wire ℚ)] = -100000 := by
  decide!

end AgentFacts

/-! ## The interpolator near a wire -/

section InterpolatorLimit

variable {α β ν : Type} [LinearOrderedField α]

theorem abs_sum_map_le {γ : Type} (l : List γ) (f g : γ → α) (h : ∀ a ∈ l, |f a| ≤ g a) :
    |(l.map f).sum| ≤ (l.map g).sum := by
  induction l with
  | nil => simp
  | cons a l ih =>
    simp only [List.map_cons, List.sum_cons]
    have h1 := h a (List.mem_cons_self a l)
    have h2 := ih (fun b hb => h b (List.mem_cons_of_mem a hb))
    exact le_trans (abs_add _ _) (add_le_add h1 h2)

theorem le_sum_map_of_mem {γ : Type} (l : List γ) (f : γ → α) (hf : ∀ a ∈ l, 0 ≤ f a)
    (x : γ) (hx : x ∈ l) : f x ≤ (l.map f).sum := by
  induction l with
  | nil => cases hx
  | cons a l ih =>
    simp only [List.map_cons, List.sum_cons]
    have h0 : 0 ≤ (l.map f).sum := by
      apply List.sum_nonneg
      intro y hy
      obtain ⟨b, hb, rfl⟩ := List.mem_map.mp hy
      exact hf b (List.mem_cons_of_mem a hb)
    rcases List.mem_cons.mp hx with rfl | hx
    · linarith
    · have := ih (fun b hb => hf b (List.mem_cons_of_mem a hb)) hx
      have := hf a (List.mem_cons_self a l)
      linarith

theorem sum_map_sub_mul {γ : Type} (l : List γ) (f g : γ → α) (c : α) :
    (l.map f).sum - c * (l.map g).sum = (l.map (fun a => f a - c * g a)).sum := by
  induction l with
  | nil => simp
  | cons a l ih =>
    simp only [List.map_cons, List.sum_cons, ← ih]
    ring

theorem nearWireConstant_nonneg (smoothingFactor : α) (k : Wire α) (wires : List (Wire α))
    (hsep : ∀ w ∈ wires, w.reward = k.reward ∨ 0 < limitDistance smoothingFactor k w) :
    0 ≤ nearWireConstant smoothingFactor k wires := by
  apply List.sum_nonneg
  intro x hx
  obtain ⟨w, hw, rfl⟩ := List.mem_map.mp hx
  rcases hsep w hw with h | h
  · simp [h]
  · exact div_nonneg (abs_nonneg _) (le_of_lt h)

/-- The distance of the interpolated value from the reward of a maximum-reward
wire queried at its own action is at most a constant times `e`. -/
theorem getRewardUsingInterpolator_near_wire (q : WireFitQLearn α β ν) (wires : List (Wire α))
    (k : Wire α) (hk : k ∈ wires) (hmax : ∀ w ∈ wires, w.reward ≤ k.reward)
    (hsentinel : -9999999 ≤ k.reward) (hfit : Fits k.action wires)
    (hs : 0 ≤ q.smoothingFactor) (he : 0 < q.e)
    (hsep : ∀ w ∈ wires, w.reward = k.reward ∨ 0 < limitDistance q.smoothingFactor k w) :
    ∃ v, getRewardUsingInterpolator q wires k.action = some v
      ∧ |v - k.reward| ≤ nearWireConstant q.smoothingFactor k wires * q.e := by
  have hm := maxRewardFromWires_eq_of_max wires k hk hmax hsentinel
  have hne : wires ≠ [] := List.ne_nil_of_mem hk
  obtain ⟨norm, wsum, hnorm, hpos, hwsum, hval⟩ :=
    normalize_pos q wires k.action hne hfit he hs
  have hnorm' := normalize_eq q wires k.action hfit
  have hwsum' := weightedSum_eq q wires k.action hfit
  rw [hnorm] at hnorm'
  rw [hwsum] at hwsum'
  have hn := Option.some.inj hnorm'
  have hw := Option.some.inj hwsum'
  rw [hm] at hn hw
  have hdist : ∀ w : Wire α, distanceValue q w k.action k.reward
      = limitDistance q.smoothingFactor k w + q.e := fun w => rfl
  have hA : ∀ w ∈ wires, 0 ≤ limitDistance q.smoothingFactor k w := by
    intro w hw
    have h1 : 0 ≤ squaredDifferences k.action w.action ^ 2 := by positivity
    have h2 := mul_nonneg hs (sub_nonneg.mpr (hmax w hw))
    unfold limitDistance
    linarith
  refine ⟨wsum / norm, hval, ?_⟩
  have hdiff : wsum / norm - k.reward = (wsum - k.reward * norm) / norm := by
    field_simp
    ring
  have hnum : |wsum - k.reward * norm| ≤ nearWireConstant q.smoothingFactor k wires := by
    rw [hw, hn, sum_map_sub_mul]
    apply abs_sum_map_le
    intro w hw
    rw [hdist]
    have hsplit : w.reward / (limitDistance q.smoothingFactor k w + q.e)
        - k.reward * (1 / (limitDistance q.smoothingFactor k w + q.e))
        = (w.reward - k.reward) / (limitDistance q.smoothingFactor k w + q.e) := by
      ring
    rw [hsplit]
    rcases hsep w hw with h | h
    · simp [h]
    · rw [abs_div, abs_of_pos (by linarith : (0 : α) < limitDistance q.smoothingFactor k w + q.e)]
      exact div_le_div_of_nonneg_left (abs_nonneg _) h (by linarith)
  have hnormge : 1 / q.e ≤ norm := by
    rw [hn]
    have := le_sum_map_of_mem wires (fun w => 1 / distanceValue q w k.action k.reward)
      (fun w hw => by
        show 0 ≤ 1 / distanceValue q w k.action k.reward
        rw [hdist]
        have := hA w hw
        exact le_of_lt (one_div_pos.mpr (by linarith)))
      k hk
    have hkk : distanceValue q k k.action k.reward = q.e := by
      rw [hdist, limitDistance, squaredDifferences_self]
      ring
    simp only [hkk] at this
    exact this
  rw [hdiff, abs_div, abs_of_pos hpos, div_le_iff₀ hpos]
  refine le_trans hnum ?_
  have hC := nearWireConstant_nonneg q.smoothingFactor k wires hsep
  have h1 : 1 ≤ q.e * norm := by
    have := mul_le_mul_of_nonneg_left hnormge (le_of_lt he)
    rwa [mul_one_div, div_self (ne_of_gt he)] at this
  calc nearWireConstant q.smoothingFactor k wires
      = nearWireConstant q.smoothingFactor k wires * 1 := (mul_one _).symm
    _ ≤ nearWireConstant q.smoothingFactor k wires * (q.e * norm) :=
        mul_le_mul_of_nonneg_left h1 hC
    _ = _ := by ring

/-- C11, counterexample: with `smoothingFactor = 0`, the wires `([0], 1)` and
`([0], 0)` and the query action `[0]` of the maximum-reward wire, both wires
are at distance `e` from the action, the interpolated value is `1/2` for every
`e > 0`, and so it does not tend to the reward `1` as `e` tends to `0`. -/
theorem getRewardUsingInterpolator_limit_counterexample :
    (∀ ε : ℝ, 0 < ε →
        getRewardUsingInterpolator (interpolatorAgent 0 ε) [⟨[0], 1⟩, ⟨[0], 0⟩] [0]
          = some (1 / 2))
      ∧ ¬ Filter.Tendsto
          (fun ε : ℝ =>
            (getRewardUsingInterpolator (interpolatorAgent 0 ε) [⟨[0], 1⟩, ⟨[0], 0⟩] [0]).getD 0)
          (nhdsWithin 0 (Set.Ioi 0)) (nhds 1) := by
  have h1 : ∀ ε : ℝ, 0 < ε →
      getRewardUsingInterpolator (interpolatorAgent 0 ε) [⟨[0], 1⟩, ⟨[0], 0⟩] [0]
        = some (1 / 2) := by
    intro ε hε
    have hm : maxRewardFromWires [(⟨[0], 1⟩ : Wire ℝ), ⟨[0], 0⟩] = 1 := by
      norm_num [maxRewardFromWires]
    simp only [getRewardUsingInterpolator, weightedSum, normalize, hm,
      distanceBetweenWireAndAction, euclideanNormLoop, interpolatorAgent, List.foldlM_cons,
      List.foldlM_nil, Option.bind_eq_bind, Option.some_bind, Option.pure_def,
      Option.some.injEq]
    field_simp
    ring
  refine ⟨h1, ?_⟩
  intro hlim
  have hconst : Filter.Tendsto
      (fun ε : ℝ =>
        (getRewardUsingInterpolator (interpolatorAgent 0 ε) [⟨[0], 1⟩, ⟨[0], 0⟩] [0]).getD 0)
      (nhdsWithin 0 (Set.Ioi 0)) (nhds (1 / 2)) := by
    apply Filter.Tendsto.congr' _ tendsto_const_nhds
    apply eventually_nhdsWithin_of_forall
    intro ε hε
    simp [h1 ε hε]
  have := tendsto_nhds_unique hlim hconst
  norm_num at this

/-- C11, amended: let wire `k` of the set have the maximum reward, at least the
initial value `-9999999` of the maximum scan, let the query action be `k`'s
action, every wire have an action of that length and `smoothingFactor ≥ 0`, and
let every wire whose reward differs from `k`'s be at a positive limit distance
`(Σ (k.action_i - w.action_i)^2)^2 + smoothingFactor * (k.reward - w.reward)`.
Then for every `e > 0` the interpolated value is within
`nearWireConstant * e` of `k`'s reward, and it tends to `k`'s reward as `e`
tends to `0` from above. -/
theorem getRewardUsingInterpolator_tendsto_wire_reward (q : WireFitQLearn ℝ β ν)
    (wires : List (Wire ℝ)) (k : Wire ℝ) (hk : k ∈ wires)
    (hmax : ∀ w ∈ wires, w.reward ≤ k.reward) (hsentinel : -9999999 ≤ k.reward)
    (hfit : Fits k.action wires) (hs : 0 ≤ q.smoothingFactor)
    (hsep : ∀ w ∈ wires, w.reward = k.reward ∨ 0 < limitDistance q.smoothingFactor k w) :
    (∀ ε : ℝ, 0 < ε →
        ∃ v, getRewardUsingInterpolator { q with e := ε } wires k.action = some v
          ∧ |v - k.reward| ≤ nearWireConstant q.smoothingFactor k wires * ε)
      ∧ Filter.Tendsto
          (fun ε : ℝ => (getRewardUsingInterpolator { q with e := ε } wires k.action).getD 0)
          (nhdsWithin 0 (Set.Ioi 0)) (nhds k.reward) := by
  have hbound : ∀ ε : ℝ, 0 < ε →
      ∃ v, getRewardUsingInterpolator { q with e := ε } wires k.action = some v
        ∧ |v - k.reward| ≤ nearWireConstant q.smoothingFactor k wires * ε :=
    fun ε hε => getRewardUsingInterpolator_near_wire { q with e := ε } wires k hk hmax
      hsentinel hfit hs hε hsep
  refine ⟨hbound, ?_⟩
  rw [tendsto_iff_dist_tendsto_zero]
  have hzero : Filter.Tendsto (fun ε : ℝ => nearWireConstant q.smoothingFactor k wires * ε)
      (nhdsWithin 0 (Set.Ioi 0)) (nhds 0) := by
    have h : Filter.Tendsto (fun ε : ℝ => nearWireConstant q.smoothingFactor k wires * ε)
        (nhds 0) (nhds (nearWireConstant q.smoothingFactor k wires * 0)) :=
      Filter.Tendsto.const_mul _ Filter.tendsto_id
    rw [mul_zero] at h
    exact tendsto_nhdsWithin_of_tendsto_nhds h
  refine squeeze_zero' (Filter.Eventually.of_forall (fun ε => dist_nonneg)) ?_ hzero
  apply eventually_nhdsWithin_of_forall
  intro ε hε
  obtain ⟨v, hv, hle⟩ := hbound ε hε
  simp only [hv, Option.getD_some, Real.dist_eq]
  exact hle

theorem getRewardUsingInterpolator_tendsto_wire_reward_witness :
    Filter.Tendsto
      (fun ε : ℝ =>
        (getRewardUsingInterpolator { (interpolatorAgent (1 / 5) 1 : WireFitQLearn ℝ Unit Unit)
          with e := ε } [⟨[0], 1⟩, ⟨[0], 0⟩] [0]).getD 0)
      (nhdsWithin 0 (Set.Ioi 0)) (nhds 1) :=
  (getRewardUsingInterpolator_tendsto_wire_reward (interpolatorAgent (1 / 5) 1)
    [⟨[0], 1⟩, ⟨[0], 0⟩] ⟨[0], 1⟩ (by simp)
    (by
      intro w hw
      simp only [List.mem_cons, List.mem_singleton, List.not_mem_nil, or_false] at hw
      rcases hw with rfl | rfl <;> norm_num)
    (by norm_num)
    (by
      intro w hw
      simp only [List.mem_cons, List.mem_singleton, List.not_mem_nil, or_false] at hw
      rcases hw with rfl | rfl <;> rfl)
    (by norm_num [interpolatorAgent])
    (by
      intro w hw
      simp only [List.mem_cons, List.mem_singleton, List.not_mem_nil, or_false] at hw
      rcases hw with rfl | rfl
      · left
        rfl
      · right
        norm_num [limitDistance, squaredDifferences, interpolatorAgent])).2

end InterpolatorLimit

/-! ## The derivative functions -/

section DerivativeFacts

variable {α β ν : Type} [LinearOrderedField α]

theorem maxScan_eq_max (m : α) (w : Wire α) :
    (if w.reward > m then w.reward else m) = max m w.reward := by
  rcases le_total m w.reward with h | h
  · rw [max_eq_right h]
    split_ifs with h'
    · rfl
    · exact le_antisymm h (not_lt.mp h')
  · rw [max_eq_left h, if_neg (not_lt.mpr h)]

theorem maxScan_foldl_max (post : List (Wire α)) (init x : α) :
    post.foldl (fun m w => if w.reward > m then w.reward else m) (max init x)
      = max x (post.foldl (fun m w => if w.reward > m then w.reward else m) init) := by
  induction post generalizing init with
  | nil => exact max_comm _ _
  | cons a post ih =>
    simp only [List.foldl_cons, maxScan_eq_max]
    have hcomm : max (max init x) a.reward = max (max init a.reward) x := by
      rw [max_assoc, max_comm x a.reward, ← max_assoc]
    rw [hcomm]
    have := ih (max init a.reward)
    simp only [maxScan_eq_max] at this
    exact this

theorem maxScan_foldl_insert (pre post : List (Wire α)) (x : Wire α) (init : α) :
    (pre ++ x :: post).foldl (fun m w => if w.reward > m then w.reward else m) init
      = max x.reward
          ((pre ++ post).foldl (fun m w => if w.reward > m then w.reward else m) init) := by
  induction pre generalizing init with
  | nil =>
    simp only [List.nil_append, List.foldl_cons]
    rw [maxScan_eq_max]
    exact maxScan_foldl_max post init x.reward
  | cons a pre ih =>
    simp only [List.cons_append, List.foldl_cons]
    exact ih _

theorem maxRewardFromWires_insert_below (pre post : List (Wire α)) (x : Wire α)
    (hx : x.reward ≤ maxRewardFromWires (pre ++ post)) :
    maxRewardFromWires (pre ++ x :: post) = maxRewardFromWires (pre ++ post) := by
  unfold maxRewardFromWires at hx ⊢
  rw [maxScan_foldl_insert, max_eq_right hx]

theorem interpolator_split (q : WireFitQLearn α β ν) (action : List α)
    (pre post : List (Wire α)) (x : Wire α) (hfit : Fits action (pre ++ x :: post))
    (hx : x.reward ≤ maxRewardFromWires (pre ++ post)) :
    weightedSum q (pre ++ x :: post) action
        = some (weightedPart q action (maxRewardFromWires (pre ++ post)) pre
            + (x.reward / distanceValue q x action (maxRewardFromWires (pre ++ post))
              + weightedPart q action (maxRewardFromWires (pre ++ post)) post))
      ∧ normalize q (pre ++ x :: post) action
        = some (normPart q action (maxRewardFromWires (pre ++ post)) pre
            + (1 / distanceValue q x action (maxRewardFromWires (pre ++ post))
              + normPart q action (maxRewardFromWires (pre ++ post)) post)) := by
  rw [weightedSum_eq q _ action hfit, normalize_eq q _ action hfit,
    maxRewardFromWires_insert_below pre post x hx]
  simp [weightedPart, normPart]

theorem hasDerivAt_distance (c s m e r0 : ℝ) :
    HasDerivAt (fun r : ℝ => c + s * (m - r) + e) (-s) r0 := by
  have := ((((hasDerivAt_id r0).const_sub m).const_mul s).const_add c).add_const e
  simpa using this

theorem hasDerivAt_weighted (A A' c s m e r0 : ℝ) (hD : c + s * (m - r0) + e ≠ 0) :
    HasDerivAt (fun r : ℝ => A + (r / (c + s * (m - r) + e) + A'))
      ((1 * (c + s * (m - r0) + e) - r0 * (-s)) / (c + s * (m - r0) + e) ^ 2) r0 :=
  (((hasDerivAt_id r0).div (hasDerivAt_distance c s m e r0) hD).add_const A').const_add A

theorem hasDerivAt_norm (B B' c s m e r0 : ℝ) (hD : c + s * (m - r0) + e ≠ 0) :
    HasDerivAt (fun r : ℝ => B + (1 / (c + s * (m - r) + e) + B'))
      ((0 * (c + s * (m - r0) + e) - 1 * (-s)) / (c + s * (m - r0) + e) ^ 2) r0 :=
  (((hasDerivAt_const r0 (1 : ℝ)).div (hasDerivAt_distance c s m e r0) hD).add_const
    B').const_add B

theorem quotient_derivative_value (D N W r0 s : ℝ) (hD : D ≠ 0) (hN : N ≠ 0) :
    (N * (D + r0 * s) - W * s) / (N * D) ^ 2
      = ((1 * D - r0 * (-s)) / D ^ 2 * N - W * ((0 * D - 1 * (-s)) / D ^ 2)) / N ^ 2 := by
  field_simp
  ring

theorem hasDerivAt_interpolated (A A' B B' c s m e r0 : ℝ)
    (hD : c + s * (m - r0) + e ≠ 0)
    (hN : B + (1 / (c + s * (m - r0) + e) + B') ≠ 0) :
    HasDerivAt
      (fun r : ℝ => (A + (r / (c + s * (m - r) + e) + A'))
        / (B + (1 / (c + s * (m - r) + e) + B')))
      (((B + (1 / (c + s * (m - r0) + e) + B')) * (c + s * (m - r0) + e + r0 * s)
          - (A + (r0 / (c + s * (m - r0) + e) + A')) * s)
        / ((B + (1 / (c + s * (m - r0) + e) + B')) * (c + s * (m - r0) + e)) ^ 2)
      r0 := by
  have hquot := (hasDerivAt_weighted A A' c s m e r0 hD).div
    (hasDerivAt_norm B B' c s m e r0 hD) hN
  rw [quotient_derivative_value _ _ _ _ _ hD hN]
  exact hquot

/-- C15, counterexample: for the single wire `([0], r)` queried at `[0]` the
interpolated value is `r`, so with target value `0` the squared error is `r^2`
and its derivative with respect to the reward at `r = 0` is `0`; yet
`rewardDerivative` returns `1` there.  The returned number is therefore not
the derivative of the squared error. -/
theorem rewardDerivative_not_error_derivative :
    rewardDerivative (interpolatorAgent (1 / 5) (1 / 100) : WireFitQLearn ℝ Unit Unit) [0]
        ⟨[0], 0⟩ [⟨[0], 0⟩] = some 1
      ∧ (∀ r : ℝ, -9999999 < r →
          getRewardUsingInterpolator (interpolatorAgent (1 / 5) (1 / 100)) [⟨[0], r⟩] [0]
            = some r)
      ∧ ¬ HasDerivAt
          (fun r : ℝ =>
            (0 - (getRewardUsingInterpolator (interpolatorAgent (1 / 5) (1 / 100))
              [⟨[0], r⟩] [0]).getD 0) ^ 2)
          1 0 := by
  have hval : ∀ r : ℝ, -9999999 < r →
      getRewardUsingInterpolator (interpolatorAgent (1 / 5) (1 / 100)) [⟨[0], r⟩] [0]
        = some r := by
    intro r hr
    have hm : maxRewardFromWires [(⟨[0], r⟩ : Wire ℝ)] = r := by
      simp [maxRewardFromWires, hr]
    simp only [getRewardUsingInterpolator, weightedSum, normalize, hm,
      distanceBetweenWireAndAction, euclideanNormLoop, interpolatorAgent, List.foldlM_cons,
      List.foldlM_nil, Option.bind_eq_bind, Option.some_bind, Option.pure_def,
      Option.some.injEq]
    norm_num
    ring
  refine ⟨?_, hval, ?_⟩
  · have hm : maxRewardFromWires [(⟨[0], 0⟩ : Wire ℝ)] = 0 := by
      norm_num [maxRewardFromWires]
    simp only [rewardDerivative, weightedSum, normalize, hm,
      distanceBetweenWireAndAction, euclideanNormLoop, interpolatorAgent, List.foldlM_cons,
      List.foldlM_nil, Option.bind_eq_bind, Option.some_bind, Option.pure_def,
      Option.some.injEq]
    norm_num
  · intro h
    have heq : (fun r : ℝ => (0 - r) ^ 2) =ᶠ[nhds 0]
        (fun r : ℝ =>
          (0 - (getRewardUsingInterpolator (interpolatorAgent (1 / 5) (1 / 100))
            [⟨[0], r⟩] [0]).getD 0) ^ 2) := by
      have hmem : Set.Ioi (-9999999 : ℝ) ∈ nhds (0 : ℝ) := Ioi_mem_nhds (by norm_num)
      filter_upwards [hmem] with r hr
      rw [hval r hr]
      rfl
    have h1 : HasDerivAt (fun r : ℝ => (0 - r) ^ 2) 1 0 := h.congr_of_eventuallyEq heq
    have h0 : HasDerivAt (fun r : ℝ => (0 - r) ^ 2) 0 0 := by
      have := ((hasDerivAt_id (0 : ℝ)).const_sub 0).pow 2
      simpa using this
    have := h1.unique h0
    norm_num at this

/-- C15, amended: `rewardDerivative(action, w, wires)` is the partial derivative
of the interpolated value `weightedSum / normalize` itself, not of the squared
error, with respect to the reward of `w`.  It holds for every wire `w` of the
set whose reward is strictly below the maximum the scan computes over the other
wires (so that the maximum reward does not move with the reward of `w`), when
every action has the length of the query action, `e > 0` and
`smoothingFactor ≥ 0`. -/
theorem rewardDerivative_is_value_derivative (q : WireFitQLearn ℝ β ν) (action : List ℝ)
    (pre post : List (Wire ℝ)) (w : Wire ℝ) (hfit : Fits action (pre ++ w :: post))
    (he : 0 < q.e) (hs : 0 ≤ q.smoothingFactor)
    (hbelow : w.reward < maxRewardFromWires (pre ++ post)) :
    ∃ d, rewardDerivative q action w (pre ++ w :: post) = some d
      ∧ HasDerivAt
          (fun r : ℝ =>
            (getRewardUsingInterpolator q (pre ++ ⟨w.action, r⟩ :: post) action).getD 0)
          d w.reward := by
  have hfitr : ∀ r : ℝ, Fits action (pre ++ ⟨w.action, r⟩ :: post) := by
    intro r u hu
    rcases List.mem_append.mp hu with h | h
    · exact hfit u (List.mem_append_left _ h)
    · rcases List.mem_cons.mp h with rfl | h
      · exact hfit w (by simp)
      · exact hfit u (List.mem_append_right _ (List.mem_cons_of_mem _ h))
  have hlen : action.length ≤ w.action.length := le_of_eq (hfit w (by simp)).symm
  -- the value as an explicit function of the reward, below the maximum
  have hvalue : ∀ r : ℝ, r < maxRewardFromWires (pre ++ post) →
      getRewardUsingInterpolator q (pre ++ ⟨w.action, r⟩ :: post) action
        = some ((weightedPart q action (maxRewardFromWires (pre ++ post)) pre
              + (r / (squaredDifferences action w.action ^ 2
                    + q.smoothingFactor * (maxRewardFromWires (pre ++ post) - r) + q.e)
                + weightedPart q action (maxRewardFromWires (pre ++ post)) post))
            / (normPart q action (maxRewardFromWires (pre ++ post)) pre
              + (1 / (squaredDifferences action w.action ^ 2
                    + q.smoothingFactor * (maxRewardFromWires (pre ++ post) - r) + q.e)
                + normPart q action (maxRewardFromWires (pre ++ post)) post))) := by
    intro r hr
    obtain ⟨h1, h2⟩ := interpolator_split q action pre post ⟨w.action, r⟩ (hfitr r)
      (le_of_lt hr)
    simp only [getRewardUsingInterpolator, h1, h2, Option.bind_eq_bind, Option.some_bind]
    rfl
  obtain ⟨h1, h2⟩ := interpolator_split q action pre post w hfit (le_of_lt hbelow)
  have hdist : distanceBetweenWireAndAction q w action (maxRewardFromWires (pre ++ w :: post))
      = some (squaredDifferences action w.action ^ 2
          + q.smoothingFactor * (maxRewardFromWires (pre ++ post) - w.reward) + q.e) := by
    rw [distanceBetweenWireAndAction_eq q w action _ hlen,
      maxRewardFromWires_insert_below pre post w (le_of_lt hbelow)]
    rfl
  have hD0 : 0 < squaredDifferences action w.action ^ 2
      + q.smoothingFactor * (maxRewardFromWires (pre ++ post) - w.reward) + q.e := by
    have h3 : 0 ≤ squaredDifferences action w.action ^ 2 := by positivity
    have h4 := mul_nonneg hs (sub_nonneg.mpr (le_of_lt hbelow))
    linarith
  obtain ⟨norm, wsum, hnorm, hnormpos, hwsum, _⟩ := normalize_pos q (pre ++ w :: post) action
    (by simp) hfit he hs
  rw [h2] at hnorm
  rw [h1] at hwsum
  have hnormEq := Option.some.inj hnorm
  have hwsumEq := Option.some.inj hwsum
  have hdv : distanceValue q w action (maxRewardFromWires (pre ++ post))
      = squaredDifferences action w.action ^ 2
          + q.smoothingFactor * (maxRewardFromWires (pre ++ post) - w.reward) + q.e := rfl
  rw [hdv] at hnormEq hwsumEq
  have hder : rewardDerivative q action w (pre ++ w :: post)
      = some ((norm * (squaredDifferences action w.action ^ 2
              + q.smoothingFactor * (maxRewardFromWires (pre ++ post) - w.reward) + q.e
              + w.reward * q.smoothingFactor) - wsum * q.smoothingFactor)
          / (norm * (squaredDifferences action w.action ^ 2
              + q.smoothingFactor * (maxRewardFromWires (pre ++ post) - w.reward) + q.e)) ^ 2) := by
    simp only [rewardDerivative, h1, h2, hdist, Option.bind_eq_bind, Option.some_bind, hdv,
      hnormEq, hwsumEq]
  refine ⟨_, hder, ?_⟩
  have hnormne : normPart q action (maxRewardFromWires (pre ++ post)) pre
      + (1 / (squaredDifferences action w.action ^ 2
            + q.smoothingFactor * (maxRewardFromWires (pre ++ post) - w.reward) + q.e)
        + normPart q action (maxRewardFromWires (pre ++ post)) post) ≠ 0 := by
    rw [hnormEq]
    exact ne_of_gt hnormpos
  have hquot := hasDerivAt_interpolated
    (weightedPart q action (maxRewardFromWires (pre ++ post)) pre)
    (weightedPart q action (maxRewardFromWires (pre ++ post)) post)
    (normPart q action (maxRewardFromWires (pre ++ post)) pre)
    (normPart q action (maxRewardFromWires (pre ++ post)) post)
    (squaredDifferences action w.action ^ 2) q.smoothingFactor
    (maxRewardFromWires (pre ++ post)) q.e w.reward (ne_of_gt hD0) hnormne
  rw [hnormEq, hwsumEq] at hquot
  have heq : (fun r : ℝ =>
        (getRewardUsingInterpolator q (pre ++ ⟨w.action, r⟩ :: post) action).getD 0)
      =ᶠ[nhds w.reward]
      (fun r : ℝ =>
        (weightedPart q action (maxRewardFromWires (pre ++ post)) pre
          + (r / (squaredDifferences action w.action ^ 2
                + q.smoothingFactor * (maxRewardFromWires (pre ++ post) - r) + q.e)
            + weightedPart q action (maxRewardFromWires (pre ++ post)) post))
        / (normPart q action (maxRewardFromWires (pre ++ post)) pre
          + (1 / (squaredDifferences action w.action ^ 2
                + q.smoothingFactor * (maxRewardFromWires (pre ++ post) - r) + q.e)
            + normPart q action (maxRewardFromWires (pre ++ post)) post))) := by
    filter_upwards [Iio_mem_nhds hbelow] with r hr
    rw [hvalue r hr]
    rfl
  exact HasDerivAt.congr_of_eventuallyEq hquot heq

theorem rewardDerivative_is_value_derivative_witness :
    ∃ d, rewardDerivative (interpolatorAgent (1 / 5) (1 / 100) : WireFitQLearn ℝ Unit Unit) [0]
        ⟨[0], 0⟩ ([] ++ ⟨[0], 0⟩ :: [⟨[0], 1⟩]) = some d
      ∧ HasDerivAt
          (fun r : ℝ =>
            (getRewardUsingInterpolator (interpolatorAgent (1 / 5) (1 / 100))
              ([] ++ ⟨[0], r⟩ :: [⟨[0], 1⟩]) [0]).getD 0)
          d 0 :=
  rewardDerivative_is_value_derivative (interpolatorAgent (1 / 5) (1 / 100)) [0] []
    [⟨[0], 1⟩] ⟨[0], 0⟩
    (by
      intro u hu
      simp only [List.nil_append, List.mem_cons, List.mem_singleton, List.not_mem_nil,
        or_false] at hu
      rcases hu with rfl | rfl <;> rfl)
    (by norm_num [interpolatorAgent]) (by norm_num [interpolatorAgent])
    (by norm_num [maxRewardFromWires])

end DerivativeFacts

end WireFit
